import Mathlib

/-!
Verification of the identifier transcoding codec of the usd-exchange repository
(source/core/library/Transcoding.cpp, together with the substitution fallback in
source/core/library/TfUtils.cpp).

Modelling conventions.

Strings are modelled as lists of Unicode code points, exactly the sequence that
the pxr UTF-8 iterator (TfUtf8CodePointView) yields for the byte string: an
invalid byte sequence yields the replacement value 0xFFFD (TfUtf8InvalidCodePoint),
so "the input contains an invalid sequence" is "0xFFFD occurs in the list".
The fixed ASCII header "tn__" and the substr(0,4)/substr(4,...) operations of
decodeIdentifier coincide at the byte and at the code point level because the
header bytes are ASCII and no UTF-8 continuation byte is below 0x80.

The two pxr classification tables TfIsUtf8CodePointXidStart and
TfIsUtf8CodePointXidContinue are external Unicode data; they are modelled as an
abstract pair of predicates (structure UnicodeData) threaded through the
definitions, with the facts a theorem needs about the real tables (for example
that every ASCII identifier character is XID-continue) taken as hypotheses.

C++ machine integers are modelled by Nat.  All arithmetic in the source is
either explicitly overflow-checked (the uint64_t accumulators, whose checks are
reproduced verbatim) or cannot wrap on any reachable value (size_t loop indices,
which stay below the vector size); the places where a C++ cast truncates
(static_cast<char> in decodeVariableLength, the code_t cast in decodeBootstring)
are modelled with the explicit % 2^8 / % 2^32 reductions.

The C++ loops are modelled as structural recursions on an explicit fuel
argument whenever the loop variable is not itself structurally decreasing; the
fuel chosen (the vector size, the remaining bitmask, the number being encoded)
is an upper bound for the iteration count of the C++ loop, so the fuel never
runs out on the states the source can reach, and every definition still
evaluates by kernel reduction.
-/

namespace Usdex

/-- Encoding format of the transcoder (Transcoding.h). -/
inductive TranscodingFormat where
  | ASCII
  | UTF8_XID
  deriving DecidableEq

/-- The external Unicode XID classification tables used by the UTF8_XID format
(TfIsUtf8CodePointXidStart / TfIsUtf8CodePointXidContinue). -/
structure UnicodeData where
  xidStart : Nat → Bool
  xidContinue : Nat → Bool

/-- `constexpr int BASE62 = 62` -/
def BASE62 : Nat := 62

/-- `constexpr char BOOTSTRING_DELIMITER = '_'` (code point 95). -/
def BOOTSTRING_DELIMITER : Nat := 95

/-- `constexpr base62_t BOOTSTRING_THRESHOLD = 31` -/
def BOOTSTRING_THRESHOLD : Nat := 31

/-- `constexpr code_t MAX_CODE_POINT = 0x10FFFF` -/
def MAX_CODE_POINT : Nat := 0x10FFFF

/-- `TfUtf8InvalidCodePoint` - the replacement value U+FFFD. -/
def INVALID_CODE_POINT : Nat := 0xFFFD

/-- The fixed bootstring header `"tn__"` (named BOOTSTRING_PREFIX in the source),
as code points. -/
def BOOTSTRING_HEADER : List Nat := [116, 110, 95, 95]

/-- `std::numeric_limits<uint64_t>::max()` -/
def U64_MAX : Nat := 2 ^ 64 - 1

/-- Encodes a base62 value into a character (`encodeBase62`). -/
def encodeBase62 (digit : Nat) : Nat :=
  if digit ≤ 9 then digit + 48
  else if 10 ≤ digit ∧ digit ≤ 35 then digit - 10 + 65
  else digit - 36 + 97

/-- Decodes a base62 character into its numeric form; any non-base62 character
yields `BASE62 + 1` (`decodeBase62`).  The C++ argument is a (signed) char cast
from the code point; bytes at or above 0x80 compare false against all three
ASCII ranges there, exactly as they do here. -/
def decodeBase62 (character : Nat) : Nat :=
  if 48 ≤ character ∧ character ≤ 57 then character - 48
  else if 65 ≤ character ∧ character ≤ 90 then character - 65 + 10
  else if 97 ≤ character ∧ character ≤ 122 then character - 97 + 36
  else BASE62 + 1

/-- `idx & (0 - idx)` on a 64-bit size_t: `0 - idx` wraps to `2^64 - idx`.
For `0 < n < 2^64` this is the lowest set bit of `n`. -/
def lowbit (n : Nat) : Nat := n &&& (2 ^ 64 - n)

/-- The `while (v >>= 1) ++most_significant_bit;` loop of the
BinaryIndexedTree constructor; the fuel is an iteration bound.  Equals
`Nat.log2 v` whenever `v ≤ fuel`. -/
def msbLoop : Nat → Nat → Nat
  | 0, _ => 0
  | fuel + 1, v => if v ≤ 1 then 0 else msbLoop fuel (v / 2) + 1

/-- A Fenwick tree (`struct BinaryIndexedTree`): the `std::vector<size_t>` of
size `capacity + 1` is modelled by a list; reads are `getD _ 0` (every read in
the source is guarded to be in bounds). -/
structure BinaryIndexedTree where
  tree : List Nat
  most_significant_bit : Nat

namespace BinaryIndexedTree

/-- `BinaryIndexedTree(n)`: vector of `n + 1` zeros, and the shift loop for
the most significant bit of `n + 1`. -/
def make (n : Nat) : BinaryIndexedTree :=
  { tree := List.replicate (n + 1) 0, most_significant_bit := msbLoop (n + 1) (n + 1) }

/-- The common update loop of `increase` and `decrease`:
`for (idx = i + 1; idx < tree.size(); idx += idx & (0 - idx)) <apply op>`.
The fuel (the vector size) bounds the iteration count because `idx` grows by
at least one each round. -/
def updateLoop (op : Nat → Nat) : Nat → List Nat → Nat → List Nat
  | 0, tree, _ => tree
  | fuel + 1, tree, idx =>
    if idx < tree.length then
      updateLoop op fuel (tree.set idx (op (tree.getD idx 0))) (idx + lowbit idx)
    else tree

/-- Increase index `i` by 1 (`increase`). -/
def increase (t : BinaryIndexedTree) (i : Nat) : BinaryIndexedTree :=
  { t with tree := updateLoop (fun v => v + 1) t.tree.length t.tree (i + 1) }

/-- Decrease index `i` by 1 (`decrease`).  The source decrements a size_t;
truncated subtraction agrees with it on every state where the entry is
positive, which holds on all states the callers can reach. -/
def decrease (t : BinaryIndexedTree) (i : Nat) : BinaryIndexedTree :=
  { t with tree := updateLoop (fun v => v - 1) t.tree.length t.tree (i + 1) }

/-- The body of `increaseAll`: `for (i = 0; i < tree.size() - 1; i++)` with the
in-place parent propagation.  The fuel is the remaining iteration count. -/
def increaseAllLoop : Nat → List Nat → Nat → List Nat
  | 0, tree, _ => tree
  | fuel + 1, tree, i =>
    if i < tree.length - 1 then
      let t1 := tree.set (i + 1) (tree.getD (i + 1) 0 + 1)
      let idx := (i + 1) + lowbit (i + 1)
      let t2 := if idx < t1.length then t1.set idx (t1.getD idx 0 + t1.getD (i + 1) 0) else t1
      increaseAllLoop fuel t2 (i + 1)
    else tree

/-- Increase all indices by 1 (`increaseAll`). -/
def increaseAll (t : BinaryIndexedTree) : BinaryIndexedTree :=
  { t with tree := increaseAllLoop t.tree.length t.tree 0 }

/-- The loop of `sum`: `for (idx = i + 1; idx > 0; idx -= idx & (0 - idx))`.
The fuel bounds the iterations because `idx` strictly decreases. -/
def sumLoop : Nat → List Nat → Nat → Nat → Nat
  | 0, _, _, acc => acc
  | fuel + 1, tree, idx, acc =>
    if idx = 0 then acc else sumLoop fuel tree (idx - lowbit idx) (acc + tree.getD idx 0)

/-- Sum of all values from 0 to `i` included (`sum`). -/
def sum (t : BinaryIndexedTree) (i : Nat) : Nat :=
  sumLoop (i + 1) t.tree (i + 1) 0

/-- The descent loop of `lower`; returns the final `(idx, sum)` pair.  The fuel
bounds the iterations because the bitmask strictly decreases. -/
def lowerLoop : Nat → List Nat → Nat → Nat → Nat → Nat × Nat
  | 0, _, idx, sum, _ => (idx, sum)
  | fuel + 1, tree, idx, sum, bitmask =>
    if bitmask = 0 then (idx, sum)
    else
      let current := idx ||| bitmask
      if current < tree.length ∧ tree.getD current 0 < sum then
        lowerLoop fuel tree current (sum - tree.getD current 0) (bitmask >>> 1)
      else
        lowerLoop fuel tree idx sum (bitmask >>> 1)

/-- Reverse operation to `sum` (`lower`): the first index whose prefix sum is
`sum`, in the sense made precise by the theorems below. -/
def lower (t : BinaryIndexedTree) (s : Nat) : Option Nat :=
  let bitmask := 1 <<< t.most_significant_bit
  let r := lowerLoop (bitmask + 1) t.tree 0 s bitmask
  if r.2 > 1 then none else some r.1

end BinaryIndexedTree

/-- `IsASCIIStart`. -/
def IsASCIIStart (value : Nat) : Bool :=
  decide ((65 ≤ value ∧ value ≤ 90) ∨ value = 95 ∨ (97 ≤ value ∧ value ≤ 122))

/-- `IsASCIIContinue`. -/
def IsASCIIContinue (value : Nat) : Bool :=
  decide ((48 ≤ value ∧ value ≤ 57) ∨ (65 ≤ value ∧ value ≤ 90) ∨ value = 95 ∨
    (97 ≤ value ∧ value ≤ 122))

/-- `IsStart`: ASCII start characters are accepted in both formats; the
UTF8_XID format additionally accepts XID-start code points. -/
def IsStart (U : UnicodeData) (value : Nat) (format : TranscodingFormat) : Bool :=
  match format with
  | TranscodingFormat.ASCII => IsASCIIStart value
  | TranscodingFormat.UTF8_XID => IsASCIIStart value || U.xidStart value

/-- `IsContinue`: the ASCII format accepts ASCII identifier characters, the
UTF8_XID format exactly the XID-continue code points. -/
def IsContinue (U : UnicodeData) (value : Nat) (format : TranscodingFormat) : Bool :=
  match format with
  | TranscodingFormat.ASCII => IsASCIIContinue value
  | TranscodingFormat.UTF8_XID => U.xidContinue value

/-- The digit-emitting loop of `encodeVariableLength`; the fuel bounds the
number of digits, and `fuel` digits suffice for any `number < 31 ^ fuel`
since the number shrinks by a factor of 31 each round. -/
def encodeVariableLengthLoop : Nat → Nat → List Nat
  | 0, _ => []
  | fuel + 1, number =>
    if number < BOOTSTRING_THRESHOLD then [encodeBase62 number]
    else
      encodeBase62 (BOOTSTRING_THRESHOLD + (number - BOOTSTRING_THRESHOLD) % (BASE62 - BOOTSTRING_THRESHOLD))
        :: encodeVariableLengthLoop fuel ((number - BOOTSTRING_THRESHOLD) / (BASE62 - BOOTSTRING_THRESHOLD))

/-- Encodes a variable length integer as base62 digits (`encodeVariableLength`);
the digits are returned in emission order.  The argument is a uint64 in the
source, and 64 digits cover every value below `31 ^ 64 > 2 ^ 64`. -/
def encodeVariableLength (number : Nat) : List Nat :=
  encodeVariableLengthLoop 64 number

/-- `decodeVariableLength`, reading code points off the front of the list and
returning the decoded number together with the unconsumed remainder (the C++
version advances an iterator in place).  `cp % 2^8` models the
`static_cast<char>` of the code point. -/
def decodeVariableLengthLoop : List Nat → Nat → Nat → Option (Nat × List Nat)
  | [], _, _ => none
  | cp :: rest, number, weight =>
    if cp > MAX_CODE_POINT then none
    else
      let digit := decodeBase62 (cp % 2 ^ 8)
      if digit > BASE62 then none
      else if digit > (U64_MAX - number) / weight then none
      else
        let number := number + digit * weight
        if digit < BOOTSTRING_THRESHOLD then some (number, rest)
        else if weight > U64_MAX / (BASE62 - BOOTSTRING_THRESHOLD) then none
        else decodeVariableLengthLoop rest number (weight * (BASE62 - BOOTSTRING_THRESHOLD))

/-- Decodes a variable length integer starting at the head of the list. -/
def decodeVariableLength (l : List Nat) : Option (Nat × List Nat) :=
  decodeVariableLengthLoop l 0 1

/-- The basic skeleton built by the first loop of `encodeBootstring`: the
continue-eligible code points in order. -/
def skeletonOf (U : UnicodeData) (format : TranscodingFormat) (cs : List Nat) : List Nat :=
  cs.filter fun v => IsContinue U v format

/-- The `extendedCodes` vector built by the second loop of `encodeBootstring`:
the (code point, original position) pairs of the non-continue code points,
`pos` being the position of the head of the remaining list. -/
def extendedFrom (U : UnicodeData) (format : TranscodingFormat) : List Nat → Nat → List (Nat × Nat)
  | [], _ => []
  | v :: rest, pos =>
    if IsContinue U v format then extendedFrom U format rest (pos + 1)
    else (v, pos) :: extendedFrom U format rest (pos + 1)

/-- The full `extendedCodes` vector. -/
def extendedOf (U : UnicodeData) (format : TranscodingFormat) (cs : List Nat) : List (Nat × Nat) :=
  extendedFrom U format cs 0

/-- The positions at which the second loop of `encodeBootstring` calls
`tree.increase` (the positions of the basic skeleton). -/
def skelPositionsFrom (U : UnicodeData) (format : TranscodingFormat) : List Nat → Nat → List Nat
  | [], _ => []
  | v :: rest, pos =>
    if IsContinue U v format then pos :: skelPositionsFrom U format rest (pos + 1)
    else skelPositionsFrom U format rest (pos + 1)

/-- The skeleton positions of the whole input. -/
def skelPositionsOf (U : UnicodeData) (format : TranscodingFormat) (cs : List Nat) : List Nat :=
  skelPositionsFrom U format cs 0

/-- The tree-seeding part of the second loop of `encodeBootstring`. -/
def seedTreeFrom (U : UnicodeData) (format : TranscodingFormat) :
    List Nat → Nat → BinaryIndexedTree → BinaryIndexedTree
  | [], _, t => t
  | v :: rest, pos, t =>
    seedTreeFrom U format rest (pos + 1) (if IsContinue U v format then t.increase pos else t)

/-- The seeded tree of `encodeBootstring` before the delta loop runs. -/
def seededTreeOf (U : UnicodeData) (format : TranscodingFormat) (cs : List Nat) : BinaryIndexedTree :=
  seedTreeFrom U format cs 0 (BinaryIndexedTree.make cs.length)

/-- The strict weak order `std::sort` uses on the (code point, position)
tuples: lexicographic.  All tuples have distinct positions, so the sorted
result is the unique ascending arrangement whatever sorting algorithm runs. -/
def pairLE (a b : Nat × Nat) : Prop :=
  a.1 < b.1 ∨ (a.1 = b.1 ∧ a.2 ≤ b.2)

instance : DecidableRel pairLE := fun a b => by unfold pairLE; infer_instance

/-- `extendedCodes` after `std::sort`. -/
def sortedExtendedOf (U : UnicodeData) (format : TranscodingFormat) (cs : List Nat) :
    List (Nat × Nat) :=
  List.insertionSort pairLE (extendedOf U format cs)

/-- The delta loop of `encodeBootstring`, returning the list of delta values
handed to `encodeVariableLength` (the source writes each encoding into the
output stream as it goes; the emitted characters are reassembled in
`encodeBootstring` below).  `codePoint - prevCodePoint` never wraps in the
source because the list is sorted by code point. -/
def deltaLoop : BinaryIndexedTree → Nat → Nat → List (Nat × Nat) → Option (List Nat)
  | _, _, _, [] => some []
  | tree, prevCodePoint, encodedPoints, (codePoint, codePosition) :: rest =>
    let delta := tree.sum codePosition
    if codePoint - prevCodePoint > (U64_MAX - delta) / (encodedPoints + 1) then none
    else
      let delta := delta + (codePoint - prevCodePoint) * (encodedPoints + 1)
      match deltaLoop (tree.increase codePosition) codePoint (encodedPoints + 1) rest with
      | none => none
      | some ds => some (delta :: ds)

/-- `encodeBootstring`. -/
def encodeBootstring (U : UnicodeData) (cs : List Nat) (format : TranscodingFormat) :
    Option (List Nat) :=
  if INVALID_CODE_POINT ∈ cs then none
  else
    let skeleton := skeletonOf U format cs
    let base := if skeleton = [] then skeleton else skeleton ++ [BOOTSTRING_DELIMITER]
    match deltaLoop (seededTreeOf U format cs) 0 skeleton.length (sortedExtendedOf U format cs) with
    | none => none
    | some ds => some (base ++ (ds.map encodeVariableLength).flatten)

/-- The first loop of `decodeBootstring`: the position of the last occurrence
of the delimiter, 0 when there is none. -/
def delimiterPositionLoop : List Nat → Nat → Nat → Nat
  | [], _, acc => acc
  | v :: rest, position, acc =>
    delimiterPositionLoop rest (position + 1) (if v = BOOTSTRING_DELIMITER then position else acc)

/-- The delimiter position `decodeBootstring` computes. -/
def delimiterPositionOf (cs : List Nat) : Nat := delimiterPositionLoop cs 0 0

/-- The delta-reading loop of `decodeBootstring`: reads variable length
integers until the input is exhausted, reconstructing (code point, position)
pairs.  `% 2^32` models the `code_t` (uint32) accumulator and cast.  The fuel
(the list length) bounds the iterations because every read consumes at least
one code point. -/
def decodeDeltasLoop : Nat → List Nat → Nat → Nat → Option (List (Nat × Nat))
  | _, [], _, _ => some []
  | 0, _ :: _, _, _ => none
  | fuel + 1, c :: rest0, decodedPoints, codePoint =>
    match decodeVariableLength (c :: rest0) with
    | none => none
    | some (value, rest) =>
      let codePoint := (codePoint + (value / (decodedPoints + 1)) % 2 ^ 32) % 2 ^ 32
      let position := value % (decodedPoints + 1)
      match decodeDeltasLoop fuel rest (decodedPoints + 1) codePoint with
      | none => none
      | some tl => some ((codePoint, position) :: tl)

/-- The placement loop of `decodeBootstring`: the values are processed from
`rbegin` to `rend`, so this runs on the reversed list.  The output vector
`codePoints` is threaded through as a list. -/
def placeLoop : List (Nat × Nat) → BinaryIndexedTree → List Nat → Option (List Nat)
  | [], _, arr => some arr
  | (value, position) :: rest, tree, arr =>
    match tree.lower (position + 1) with
    | none => none
    | some index => placeLoop rest (tree.decrease index) (arr.set index value)

/-- `decodeBootstring`. -/
def decodeBootstring (cs : List Nat) : Option (List Nat) :=
  if INVALID_CODE_POINT ∈ cs then none
  else
    let delimiterPosition := delimiterPositionOf cs
    let basic : List (Nat × Nat) :=
      if delimiterPosition > 0 then (cs.take delimiterPosition).enum.map fun pv => (pv.2, pv.1)
      else []
    let remainder := if delimiterPosition > 0 then cs.drop (delimiterPosition + 1) else cs
    match decodeDeltasLoop remainder.length remainder basic.length 0 with
    | none => none
    | some decoded =>
      let values := basic ++ decoded
      let tree := (BinaryIndexedTree.make values.length).increaseAll
      placeLoop values.reverse tree (List.replicate values.length 0)

/-- `usdex::core::detail::encodeIdentifier`.  When the input is empty the
unchanged-branch comparison fails (the bootstring output is empty while
`input + delimiter` is not), so the `IsStart` dereference of the first code
point, modelled with `headD`, is only reached on non-empty input. -/
def encodeIdentifier (U : UnicodeData) (cs : List Nat) (format : TranscodingFormat) : List Nat :=
  match encodeBootstring U cs format with
  | none => []
  | some output =>
    let result := BOOTSTRING_HEADER ++ output
    if output = cs ++ [BOOTSTRING_DELIMITER] then
      if IsStart U (cs.headD 0) format then cs else result
    else result

/-- `usdex::core::detail::decodeIdentifier`.  `substr(0, 4)` and
`substr(4, size - 1)` are `take 4` and `drop 4` at the code point level
because the header is ASCII and the count `size - 1` always reaches the end. -/
def decodeIdentifier (cs : List Nat) : List Nat :=
  if cs.take 4 = BOOTSTRING_HEADER then
    match decodeBootstring (cs.drop 4) with
    | none => cs
    | some out => out
  else cs

/-- `makeValidIdentifierExtended` of TfUtils.cpp, over the bytes of the input
(it walks the C string bytewise; bytes at or above 0x80 are negative chars in
the source and fail all the ASCII range tests, as they do here). -/
def makeValidIdentifierExtended (inBytes : List Nat) : List Nat :=
  match inBytes with
  | [] => [95]
  | p :: rest =>
    (if 48 ≤ p ∧ p ≤ 57 then [95, p]
     else if (97 ≤ p ∧ p ≤ 122) ∨ (65 ≤ p ∧ p ≤ 90) ∨ p = 95 then [p]
     else [95]) ++
      rest.map fun c =>
        if (97 ≤ c ∧ c ≤ 122) ∨ (65 ≤ c ∧ c ≤ 90) ∨ (48 ≤ c ∧ c ≤ 57) ∨ c = 95 then c else 95

/-- A base62 output character: ASCII digit or letter. -/
def isBase62Char (c : Nat) : Bool :=
  decide ((48 ≤ c ∧ c ≤ 57) ∨ (65 ≤ c ∧ c ≤ 90) ∨ (97 ≤ c ∧ c ≤ 122))

/-- A legal identifier under a profile: non-empty, start-eligible first code
point, all code points continue-eligible. -/
def isLegalIdentifier (U : UnicodeData) (format : TranscodingFormat) (cs : List Nat) : Bool :=
  match cs with
  | [] => false
  | c :: _ => IsStart U c format && cs.all fun v => IsContinue U v format

/-- The number of placed positions strictly before `pos`. -/
def countBefore (placed : List Nat) (pos : Nat) : Nat :=
  (placed.filter fun q => q < pos).length

/-- Modelled from the spec (§4.4 step 4): for each extended code point in
sorted order, `delta = (codePoint - previousCodePoint) * (alreadyPlaced + 1) +
positionsPreceding`, failing when the value would overflow the 64-bit
accumulator; `positionsPreceding` counts the basic-skeleton or already-emitted
positions strictly before the entry's original position. -/
def specDeltas (placed : List Nat) (prevCodePoint alreadyPlaced : Nat) :
    List (Nat × Nat) → Option (List Nat)
  | [] => some []
  | (codePoint, position) :: rest =>
    let delta := (codePoint - prevCodePoint) * (alreadyPlaced + 1) + countBefore placed position
    if U64_MAX < delta then none
    else
      match specDeltas (position :: placed) codePoint (alreadyPlaced + 1) rest with
      | none => none
      | some ds => some (delta :: ds)

/-- Empty XID tables: a concrete `UnicodeData` instantiation (the ASCII format
never consults the tables). -/
def emptyUnicodeData : UnicodeData := ⟨fun _ => false, fun _ => false⟩

/-- XID tables that coincide with the ASCII classes: a concrete `UnicodeData`
satisfying the assumption, true of the real Unicode tables, that every ASCII
identifier character is XID-continue. -/
def asciiUnicodeData : UnicodeData := ⟨IsASCIIStart, IsASCIIContinue⟩

/-- The prefix sum of an abstract slot-count function: the number of present
slots among `0, ..., j - 1`. -/
def prefixCount (counts : Nat → Nat) (j : Nat) : Nat :=
  ∑ k in Finset.range j, counts k

/-- The coherence invariant tying a `BinaryIndexedTree` to the abstract
slot-count function it represents: internal cell `j` holds the count of the
logical slots `j - lowbit j, ..., j - 1`, and the cached most significant bit
matches the vector size.  Every tree the source builds satisfies it. -/
def Coherent (t : BinaryIndexedTree) (counts : Nat → Nat) : Prop :=
  1 ≤ t.tree.length ∧ t.tree.length ≤ 2 ^ 64 ∧
    t.most_significant_bit = Nat.log2 t.tree.length ∧
    ∀ j, 1 ≤ j → j < t.tree.length →
      t.tree.getD j 0 = ∑ k in Finset.Ico (j - lowbit j) j, counts k

/-!
### Helper lemmas

Facts about the base62 digit codec and the variable length encoder shared by
several of the claim theorems below.
-/

/-- Bits of an odd number above bit 0 are the bits of its floor half shifted. -/
theorem testBit_two_mul_add_one (a j : Nat) (h : 1 ≤ j) :
    (2 * a + 1).testBit j = a.testBit (j - 1) := by
  cases j with
  | zero => omega
  | succ j' =>
    rw [Nat.testBit_succ]
    have : (2 * a + 1) / 2 = a := by omega
    rw [this, Nat.succ_sub_one]

/-- Bits of an even number above bit 0 are the bits of its half shifted. -/
theorem testBit_two_mul (a j : Nat) (h : 1 ≤ j) :
    (2 * a).testBit j = a.testBit (j - 1) := by
  cases j with
  | zero => omega
  | succ j' =>
    rw [Nat.testBit_succ]
    have : 2 * a / 2 = a := by omega
    rw [this, Nat.succ_sub_one]

/-- The two's complement trick behind `idx & (0 - idx)`: on an odd multiple of
`2 ^ k` below `2 ^ 64` it extracts exactly `2 ^ k`. -/
theorem lowbit_odd_mul_pow (a k : Nat) (h : (2 * a + 1) * 2 ^ k < 2 ^ 64) :
    lowbit ((2 * a + 1) * 2 ^ k) = 2 ^ k := by
  have hk : k < 64 := by
    by_contra hk
    push_neg at hk
    have h1 : 2 ^ 64 ≤ 2 ^ k := Nat.pow_le_pow_right (by norm_num) hk
    have h2 : 2 ^ k ≤ (2 * a + 1) * 2 ^ k := Nat.le_mul_of_pos_left _ (by omega)
    omega
  have htk : 64 = (64 - k) + k := by omega
  have hpow : (2:Nat) ^ 64 = 2 ^ (64 - k) * 2 ^ k := by rw [← pow_add, ← htk]
  have ht1 : 1 ≤ 64 - k := by omega
  have hteven : 2 ^ (64 - k) % 2 = 0 := by
    have : (2:Nat) ^ (64 - k) = 2 * 2 ^ (64 - k - 1) := by
      rw [← pow_succ']
      congr 1
      omega
    omega
  have h2a : 2 * a < 2 ^ (64 - k) := by
    by_contra hc
    push_neg at hc
    have : 2 ^ (64 - k) * 2 ^ k ≤ (2 * a + 1) * 2 ^ k :=
      Nat.mul_le_mul_right _ (by omega)
    omega
  have h2a1 : 2 * a + 1 < 2 ^ (64 - k) := by omega
  have hm : 2 ^ 64 - (2 * a + 1) * 2 ^ k = (2 ^ (64 - k) - (2 * a + 1)) * 2 ^ k := by
    rw [Nat.sub_mul, hpow]
  have hshift : ∀ (x i : Nat), (x * 2 ^ k).testBit i = (decide (i ≥ k) && x.testBit (i - k)) := by
    intro x i
    rw [← Nat.shiftLeft_eq, Nat.testBit_shiftLeft]
  apply Nat.eq_of_testBit_eq
  intro i
  rw [lowbit, Nat.testBit_land, hm, hshift, hshift, Nat.testBit_two_pow]
  by_cases hik : k ≤ i
  · rw [decide_eq_true (show i ≥ k from hik)]
    simp only [Bool.true_and]
    by_cases hi : i = k
    · rw [hi, Nat.sub_self, Nat.testBit_zero, Nat.testBit_zero]
      have hodd1 : (2 * a + 1) % 2 = 1 := by omega
      have hodd2 : (2 ^ (64 - k) - (2 * a + 1)) % 2 = 1 := by omega
      simp [hodd1, hodd2]
    · have hj : 1 ≤ i - k := by omega
      rw [Nat.testBit_two_pow_sub_succ (show 2 * a < 2 ^ (64 - k) from h2a)]
      by_cases hit : i - k < 64 - k
      · rw [testBit_two_mul_add_one a _ hj, testBit_two_mul a _ hj]
        rw [decide_eq_true hit]
        simp only [Bool.true_and]
        rw [decide_eq_false (show ¬ (k = i) from fun hc => hi hc.symm)]
        cases h : a.testBit (i - k - 1) <;> simp [h]
      · have hlt : 2 * a + 1 < 2 ^ (i - k) := by
          have : (2:Nat) ^ (64 - k) ≤ 2 ^ (i - k) := Nat.pow_le_pow_right (by norm_num) (by omega)
          omega
        rw [Nat.testBit_lt_two_pow hlt]
        simp [show k ≠ i from fun hc => hi hc.symm]
  · rw [decide_eq_false (show ¬ (i ≥ k) from hik)]
    simp [show k ≠ i by omega]

/-- Every positive 64-bit number is an odd multiple of a power of two, and
`lowbit` extracts that power. -/
theorem lowbit_spec {n : Nat} (h0 : 0 < n) (h64 : n < 2 ^ 64) :
    ∃ k a, n = (2 * a + 1) * 2 ^ k ∧ lowbit n = 2 ^ k := by
  obtain ⟨e, m, hm, hn⟩ := Nat.exists_eq_pow_mul_and_not_dvd (Nat.pos_iff_ne_zero.mp h0) 2 (by decide)
  have hmodd : m % 2 = 1 := Nat.not_even_iff.mp (fun he => hm he.two_dvd)
  have hm2 : m = 2 * (m / 2) + 1 := by omega
  refine ⟨e, m / 2, ?_, ?_⟩
  · rw [hn, ← hm2, Nat.mul_comm]
  · rw [hn, Nat.mul_comm (2 ^ e) m, hm2]
    exact lowbit_odd_mul_pow (m / 2) e (by rw [← hm2, ← Nat.mul_comm (2 ^ e) m, ← hn]; exact h64)

/-- `lowbit` is positive on positive 64-bit numbers. -/
theorem lowbit_pos {n : Nat} (h0 : 0 < n) (h64 : n < 2 ^ 64) : 0 < lowbit n := by
  obtain ⟨k, a, -, hlb⟩ := lowbit_spec h0 h64
  rw [hlb]
  exact Nat.pos_pow_of_pos k (by norm_num)

/-- `lowbit` never exceeds its argument. -/
theorem lowbit_le (n : Nat) : lowbit n ≤ n := Nat.and_le_left

/-- Setting a clear low bit is addition: `e * 2 ^ (m + 1) ||| 2 ^ m`. -/
theorem lor_two_pow (e m : Nat) : (e * 2 ^ (m + 1)) ||| 2 ^ m = e * 2 ^ (m + 1) + 2 ^ m := by
  have hsum : e * 2 ^ (m + 1) + 2 ^ m = (2 * e + 1) * 2 ^ m := by ring
  have hshift : ∀ (x i : Nat), (x * 2 ^ m).testBit i = (decide (i ≥ m) && x.testBit (i - m)) := by
    intro x i
    rw [← Nat.shiftLeft_eq, Nat.testBit_shiftLeft]
  have hmul : e * 2 ^ (m + 1) = (2 * e) * 2 ^ m := by ring
  apply Nat.eq_of_testBit_eq
  intro i
  rw [Nat.testBit_lor, hsum, hmul, hshift, hshift, Nat.testBit_two_pow]
  by_cases hik : m ≤ i
  · rw [decide_eq_true (show i ≥ m from hik)]
    simp only [Bool.true_and]
    by_cases hi : i = m
    · subst hi
      rw [Nat.sub_self, Nat.testBit_zero, Nat.testBit_zero]
      simp [Nat.mul_mod_right]
      omega
    · have hj : 1 ≤ i - m := by omega
      rw [testBit_two_mul_add_one e _ hj, testBit_two_mul e _ hj]
      simp [show m ≠ i from fun hc => hi hc.symm]
  · rw [decide_eq_false (show ¬ (i ≥ m) from hik)]
    simp [show m ≠ i by omega]

/-- Geometric sum of powers of two. -/
theorem sum_two_pow (k : Nat) : ∑ j in Finset.range k, 2 ^ j = 2 ^ k - 1 := by
  induction k with
  | zero => rfl
  | succ k ih =>
    rw [Finset.sum_range_succ, ih]
    have h1 : (1:Nat) ≤ 2 ^ k := Nat.one_le_two_pow
    have h2 : (2:Nat) ^ (k + 1) = 2 ^ k + 2 ^ k := by ring
    omega

/-- The classic Fenwick update-path step: if a strictly larger cell `j` covers
`idx` (that is `j - lowbit j < idx`), then `j` is at least the next cell on
the update chain, `idx + lowbit idx`. -/
theorem chain_next {idx j : Nat} (h1 : 1 ≤ idx) (hij : idx < j) (hj64 : j < 2 ^ 64)
    (hcov : j - lowbit j < idx) : idx + lowbit idx ≤ j := by
  by_contra hc
  push_neg at hc
  obtain ⟨k, a, hidx, hlbk⟩ := lowbit_spec (show 0 < idx by omega) (by omega)
  have hr0 : 0 < j - idx := by omega
  have hrk : j - idx < 2 ^ k := by rw [hlbk] at hc; omega
  obtain ⟨u, b, hrdecomp, -⟩ := lowbit_spec hr0 (by omega : j - idx < 2 ^ 64)
  have h2u : (2:Nat) ^ u ≤ j - idx := by
    rw [hrdecomp]
    exact Nat.le_mul_of_pos_left _ (by omega)
  have huk : u < k := by
    by_contra hu
    push_neg at hu
    have : (2:Nat) ^ k ≤ 2 ^ u := Nat.pow_le_pow_right (by norm_num) hu
    omega
  have h2k : (2:Nat) ^ k = 2 ^ (k - u - 1) * 2 * 2 ^ u := by
    have hexp : k - u - 1 + 1 + u = k := by omega
    calc (2:Nat) ^ k = 2 ^ (k - u - 1 + 1 + u) := by rw [hexp]
      _ = 2 ^ (k - u - 1) * 2 ^ 1 * 2 ^ u := by rw [pow_add, pow_add]
      _ = 2 ^ (k - u - 1) * 2 * 2 ^ u := by norm_num
  have hj_decomp : j = (2 * ((2 * a + 1) * 2 ^ (k - u - 1) + b) + 1) * 2 ^ u := by
    calc j = idx + (j - idx) := by omega
      _ = (2 * a + 1) * 2 ^ k + (2 * b + 1) * 2 ^ u := by rw [← hidx, ← hrdecomp]
      _ = (2 * a + 1) * (2 ^ (k - u - 1) * 2 * 2 ^ u) + (2 * b + 1) * 2 ^ u := by rw [← h2k]
      _ = (2 * ((2 * a + 1) * 2 ^ (k - u - 1) + b) + 1) * 2 ^ u := by ring
  have hlbj : lowbit j = 2 ^ u := by
    rw [hj_decomp]
    exact lowbit_odd_mul_pow _ _ (by rw [← hj_decomp]; exact hj64)
  rw [hlbj] at hcov
  omega

/-- The companion chain fact: a cell at or beyond `idx + lowbit idx` that
covers some position below `idx + lowbit idx` in fact covers below `idx`.
Together with `chain_next` this says the update chain visits exactly the
cells whose interval contains the updated slot. -/
theorem chain_prev {idx j : Nat} (h1 : 1 ≤ idx) (hj64 : j < 2 ^ 64)
    (hle : idx + lowbit idx ≤ j) (hcov : j - lowbit j < idx + lowbit idx) :
    j - lowbit j < idx := by
  obtain ⟨k, a, hidx, hlbk⟩ := lowbit_spec (show 0 < idx by omega) (by omega : idx < 2 ^ 64)
  have hidx' : idx + lowbit idx = (a + 1) * 2 ^ (k + 1) := by
    rw [hlbk, hidx]
    ring
  have hj0 : 0 < j := by omega
  obtain ⟨t, c, hjdecomp, hlbt⟩ := lowbit_spec hj0 hj64
  by_cases htk : t ≤ k
  · exfalso
    have hst : j - (idx + lowbit idx) < 2 ^ t := by rw [hlbt] at hcov; omega
    by_cases hs0 : j - (idx + lowbit idx) = 0
    · have hj_eq : j = (a + 1) * 2 ^ (k + 1) := by omega
      have ha64 : a + 1 < 2 ^ 64 := by
        have h2 : 2 * a + 1 ≤ (2 * a + 1) * 2 ^ k :=
          Nat.le_mul_of_pos_right _ (Nat.pos_pow_of_pos _ (by norm_num))
        omega
      obtain ⟨w, d, had, -⟩ := lowbit_spec (show 0 < a + 1 by omega) ha64
      have hj_decomp2 : j = (2 * d + 1) * 2 ^ (k + 1 + w) := by
        rw [hj_eq, had, pow_add]
        ring
      have hlbj2 : lowbit j = 2 ^ (k + 1 + w) := by
        rw [hj_decomp2]
        exact lowbit_odd_mul_pow _ _ (by rw [← hj_decomp2]; exact hj64)
      rw [hlbt] at hlbj2
      have := Nat.pow_right_injective (by norm_num : 2 ≤ 2) hlbj2
      omega
    · obtain ⟨u, b, hsdecomp, -⟩ :=
        lowbit_spec (by omega : 0 < j - (idx + lowbit idx)) (by omega)
      have h2u : (2:Nat) ^ u ≤ j - (idx + lowbit idx) := by
        rw [hsdecomp]
        exact Nat.le_mul_of_pos_left _ (by omega)
      have hut : u < t := by
        by_contra hu
        push_neg at hu
        have : (2:Nat) ^ t ≤ 2 ^ u := Nat.pow_le_pow_right (by norm_num) hu
        omega
      have h2k1 : (2:Nat) ^ (k + 1) = 2 ^ (k - u) * 2 * 2 ^ u := by
        have hexp : k - u + 1 + u = k + 1 := by omega
        calc (2:Nat) ^ (k + 1) = 2 ^ (k - u + 1 + u) := by rw [hexp]
          _ = 2 ^ (k - u) * 2 ^ 1 * 2 ^ u := by rw [pow_add, pow_add]
          _ = 2 ^ (k - u) * 2 * 2 ^ u := by norm_num
      have hj_decomp2 : j = (2 * ((a + 1) * 2 ^ (k - u) + b) + 1) * 2 ^ u := by
        calc j = (idx + lowbit idx) + (j - (idx + lowbit idx)) := by omega
          _ = (a + 1) * 2 ^ (k + 1) + (2 * b + 1) * 2 ^ u := by rw [← hidx', ← hsdecomp]
          _ = (a + 1) * (2 ^ (k - u) * 2 * 2 ^ u) + (2 * b + 1) * 2 ^ u := by rw [← h2k1]
          _ = (2 * ((a + 1) * 2 ^ (k - u) + b) + 1) * 2 ^ u := by ring
      have hlbj2 : lowbit j = 2 ^ u := by
        rw [hj_decomp2]
        exact lowbit_odd_mul_pow _ _ (by rw [← hj_decomp2]; exact hj64)
      rw [hlbt] at hlbj2
      have := Nat.pow_right_injective (by norm_num : 2 ≤ 2) hlbj2
      omega
  · push_neg at htk
    have hjlb : j - lowbit j = 2 * c * 2 ^ (t - k - 1) * 2 ^ (k + 1) := by
      have hsplit : (2:Nat) ^ t = 2 ^ (t - k - 1) * 2 ^ (k + 1) := by
        rw [← pow_add]
        congr 1
        omega
      have hexpand : (2 * c + 1) * 2 ^ t = 2 * c * 2 ^ t + 2 ^ t := by ring
      have hmul : 2 * c * 2 ^ t = 2 * c * 2 ^ (t - k - 1) * 2 ^ (k + 1) := by
        rw [hsplit]
        ring
      rw [hlbt, hjdecomp, hexpand]
      omega
    rw [hjlb, hidx'] at hcov
    have hxa : 2 * c * 2 ^ (t - k - 1) < a + 1 := Nat.lt_of_mul_lt_mul_right hcov
    have hidx2 : idx = a * 2 ^ (k + 1) + 2 ^ k := by rw [hidx]; ring
    have h2kpos : 0 < (2:Nat) ^ k := Nat.pos_pow_of_pos _ (by norm_num)
    have hle2 : 2 * c * 2 ^ (t - k - 1) * 2 ^ (k + 1) ≤ a * 2 ^ (k + 1) :=
      Nat.mul_le_mul_right _ (by omega)
    rw [hjlb, hidx2]
    omega

/-- The constructor's shift loop computes the base-two logarithm. -/
theorem msbLoop_eq_log2 : ∀ fuel v, v ≤ fuel → msbLoop fuel v = Nat.log2 v := by
  intro fuel
  induction fuel with
  | zero =>
    intro v hv
    have hv0 : v = 0 := by omega
    subst hv0
    rw [show msbLoop 0 0 = 0 from rfl, Nat.log2]
    simp
  | succ fuel ih =>
    intro v hv
    rw [msbLoop]
    by_cases h1 : v ≤ 1
    · rw [if_pos h1, Nat.log2]
      rw [if_neg (by omega)]
    · rw [if_neg h1, ih (v / 2) (by omega)]
      conv_rhs => rw [Nat.log2]
      rw [if_pos (by omega)]

/-- The update loop preserves the vector length. -/
theorem length_updateLoop (op : Nat → Nat) :
    ∀ fuel tree idx, (BinaryIndexedTree.updateLoop op fuel tree idx).length = tree.length := by
  intro fuel
  induction fuel with
  | zero => intro tree idx; rfl
  | succ fuel ih =>
    intro tree idx
    rw [BinaryIndexedTree.updateLoop]
    by_cases h : idx < tree.length
    · rw [if_pos h, ih, List.length_set]
    · rw [if_neg h]

/-- Reads after `List.set` at the written index. -/
theorem getD_set_self {l : List Nat} {i v : Nat} (h : i < l.length) :
    (l.set i v).getD i 0 = v := by
  simp [List.getD_eq_getElem?_getD, List.getElem?_set_self', h]

/-- Reads after `List.set` at any other index. -/
theorem getD_set_ne {l : List Nat} {i j v : Nat} (h : i ≠ j) :
    (l.set i v).getD j 0 = l.getD j 0 := by
  simp [List.getD_eq_getElem?_getD, List.getElem?_set_ne h]

/-- `increase` preserves the vector length. -/
theorem length_increase (t : BinaryIndexedTree) (i : Nat) :
    (t.increase i).tree.length = t.tree.length :=
  length_updateLoop _ _ _ _

/-- `decrease` preserves the vector length. -/
theorem length_decrease (t : BinaryIndexedTree) (i : Nat) :
    (t.decrease i).tree.length = t.tree.length :=
  length_updateLoop _ _ _ _

/-- The full characterisation of the update loop: starting the chain at `idx`,
cell `j` receives the operation exactly when it is in range and its covering
interval reaches below `idx` — the classic Fenwick update set. -/
theorem updateLoop_spec (op : Nat → Nat) :
    ∀ fuel tree idx, 1 ≤ idx → tree.length ≤ 2 ^ 64 → tree.length ≤ fuel + idx →
      ∀ j, (BinaryIndexedTree.updateLoop op fuel tree idx).getD j 0 =
        if idx ≤ j ∧ j < tree.length ∧ j - lowbit j < idx then op (tree.getD j 0)
        else tree.getD j 0 := by
  intro fuel
  induction fuel with
  | zero =>
    intro tree idx h1 h64 hfuel j
    rw [BinaryIndexedTree.updateLoop, if_neg]
    intro hc
    omega
  | succ fuel ih =>
    intro tree idx h1 h64 hfuel j
    rw [BinaryIndexedTree.updateLoop]
    by_cases hidx : idx < tree.length
    · rw [if_pos hidx]
      have hlbpos : 0 < lowbit idx := lowbit_pos (by omega) (by omega)
      have hlen : (tree.set idx (op (tree.getD idx 0))).length = tree.length := List.length_set tree idx _
      rw [ih (tree.set idx (op (tree.getD idx 0))) (idx + lowbit idx) (by omega)
        (by rw [hlen]; exact h64) (by rw [hlen]; omega) j]
      rw [hlen]
      by_cases hj : j = idx
      · subst hj
        rw [if_neg (by omega), if_pos ⟨Nat.le_refl j, hidx, by omega⟩, getD_set_self hidx]
      · rw [getD_set_ne (Ne.symm hj)]
        by_cases hcond : idx + lowbit idx ≤ j ∧ j < tree.length ∧ j - lowbit j < idx + lowbit idx
        · obtain ⟨hc1, hc2, hc3⟩ := hcond
          have hchain := chain_prev (by omega) (by omega) hc1 hc3
          rw [if_pos ⟨hc1, hc2, hc3⟩, if_pos ⟨by omega, hc2, hchain⟩]
        · rw [if_neg hcond, if_neg]
          intro ⟨hd1, hd2, hd3⟩
          have hij : idx < j := by omega
          have hchain := chain_next (by omega) hij (by omega) hd3
          exact hcond ⟨hchain, hd2, by omega⟩
    · rw [if_neg hidx, if_neg]
      intro hc
      omega

/-- A fresh tree is coherent with the all-absent slot counts. -/
theorem Coherent_make {n : Nat} (h : n + 1 ≤ 2 ^ 64) :
    Coherent (BinaryIndexedTree.make n) (fun _ => 0) := by
  refine ⟨?_, ?_, ?_, ?_⟩
  · simp [BinaryIndexedTree.make]
  · simp [BinaryIndexedTree.make]
    omega
  · show msbLoop (n + 1) (n + 1) = Nat.log2 (List.replicate (n + 1) (0:Nat)).length
    rw [List.length_replicate]
    exact msbLoop_eq_log2 (n + 1) (n + 1) (le_refl _)
  · intro j hj1 hjlen
    show (List.replicate (n + 1) 0).getD j 0 = _
    rw [Finset.sum_const_zero]
    simp [List.getD_eq_getElem?_getD, List.getElem?_replicate]
    split <;> rfl

/-- `increase i` is coherent with bumping slot `i` by one. -/
theorem Coherent_increase {t : BinaryIndexedTree} {counts : Nat → Nat} {i : Nat}
    (hco : Coherent t counts) (hi : i + 1 < t.tree.length) :
    Coherent (t.increase i) (fun k => counts k + if k = i then 1 else 0) := by
  obtain ⟨hpos, h64, hmsb, hinv⟩ := hco
  refine ⟨?_, ?_, ?_, ?_⟩
  · rw [length_increase]; exact hpos
  · rw [length_increase]; exact h64
  · rw [length_increase]; exact hmsb
  · intro j hj1 hjlen
    rw [length_increase] at hjlen
    show (BinaryIndexedTree.updateLoop (fun v => v + 1) t.tree.length t.tree (i + 1)).getD j 0 = _
    rw [updateLoop_spec (fun v => v + 1) t.tree.length t.tree (i + 1) (by omega) h64 (by omega) j]
    have hsum : ∑ k in Finset.Ico (j - lowbit j) j, (counts k + if k = i then 1 else 0)
        = (∑ k in Finset.Ico (j - lowbit j) j, counts k)
          + (if i ∈ Finset.Ico (j - lowbit j) j then 1 else 0) := by
      rw [Finset.sum_add_distrib, Finset.sum_ite_eq' (Finset.Ico (j - lowbit j) j) i (fun _ => 1)]
    rw [hsum]
    by_cases hcond : i + 1 ≤ j ∧ j < t.tree.length ∧ j - lowbit j < i + 1
    · rw [if_pos hcond, hinv j hj1 hjlen, if_pos (by rw [Finset.mem_Ico]; omega)]
    · rw [if_neg hcond, hinv j hj1 hjlen, if_neg, Nat.add_zero]
      rw [Finset.mem_Ico]
      intro hmem
      exact hcond ⟨by omega, hjlen, by omega⟩

/-- `decrease i` is coherent with dropping slot `i` by one, on states where
slot `i` is present (the only states the source reaches). -/
theorem Coherent_decrease {t : BinaryIndexedTree} {counts : Nat → Nat} {i : Nat}
    (hco : Coherent t counts) (hi : i + 1 < t.tree.length) (hc1 : 1 ≤ counts i) :
    Coherent (t.decrease i) (fun k => counts k - if k = i then 1 else 0) := by
  obtain ⟨hpos, h64, hmsb, hinv⟩ := hco
  have key : ∀ s : Finset Nat,
      (∑ k in s, (counts k - if k = i then 1 else 0)) + (if i ∈ s then 1 else 0)
        = ∑ k in s, counts k := by
    intro s
    rw [← Finset.sum_ite_eq' s i (fun _ => 1), ← Finset.sum_add_distrib]
    apply Finset.sum_congr rfl
    intro k hk
    by_cases hki : k = i
    · subst hki
      simp
      omega
    · simp [hki]
  refine ⟨?_, ?_, ?_, ?_⟩
  · rw [length_decrease]; exact hpos
  · rw [length_decrease]; exact h64
  · rw [length_decrease]; exact hmsb
  · intro j hj1 hjlen
    rw [length_decrease] at hjlen
    show (BinaryIndexedTree.updateLoop (fun v => v - 1) t.tree.length t.tree (i + 1)).getD j 0 =
      ∑ k in Finset.Ico (j - lowbit j) j, (counts k - if k = i then 1 else 0)
    rw [updateLoop_spec (fun v => v - 1) t.tree.length t.tree (i + 1) (by omega) h64 (by omega) j]
    have hkey := key (Finset.Ico (j - lowbit j) j)
    by_cases hcond : i + 1 ≤ j ∧ j < t.tree.length ∧ j - lowbit j < i + 1
    · rw [if_pos hcond, hinv j hj1 hjlen]
      rw [if_pos (by rw [Finset.mem_Ico]; omega)] at hkey
      omega
    · rw [if_neg hcond, hinv j hj1 hjlen]
      rw [if_neg (by rw [Finset.mem_Ico]; intro hmem; exact hcond ⟨by omega, hjlen, by omega⟩)] at hkey
      omega

/-- The query loop telescopes to a prefix sum on any coherent vector. -/
theorem sumLoop_spec {tree : List Nat} {counts : Nat → Nat}
    (hinv : ∀ j, 1 ≤ j → j < tree.length →
      tree.getD j 0 = ∑ k in Finset.Ico (j - lowbit j) j, counts k)
    (h64 : tree.length ≤ 2 ^ 64) :
    ∀ fuel idx acc, idx < tree.length → idx ≤ fuel →
      BinaryIndexedTree.sumLoop fuel tree idx acc = acc + ∑ k in Finset.range idx, counts k := by
  intro fuel
  induction fuel with
  | zero =>
    intro idx acc h1 h2
    have hidx0 : idx = 0 := by omega
    subst hidx0
    simp [BinaryIndexedTree.sumLoop]
  | succ fuel ih =>
    intro idx acc hlen hfuel
    rw [BinaryIndexedTree.sumLoop]
    by_cases h0 : idx = 0
    · rw [if_pos h0]
      subst h0
      simp
    · rw [if_neg h0]
      have hlb0 : 0 < lowbit idx := lowbit_pos (by omega) (by omega)
      have hlble : lowbit idx ≤ idx := lowbit_le idx
      rw [ih (idx - lowbit idx) (acc + tree.getD idx 0) (by omega) (by omega)]
      rw [hinv idx (by omega) hlen]
      have hcons := Finset.sum_Ico_consecutive counts
        (Nat.zero_le (idx - lowbit idx)) (show idx - lowbit idx ≤ idx by omega)
      rw [Finset.range_eq_Ico]
      omega

/-- `sum i` is the number of present slots in `0, ..., i` on a coherent tree. -/
theorem sum_spec {t : BinaryIndexedTree} {counts : Nat → Nat}
    (hco : Coherent t counts) {i : Nat} (hi : i + 1 < t.tree.length) :
    t.sum i = ∑ k in Finset.range (i + 1), counts k := by
  obtain ⟨-, h64, -, hinv⟩ := hco
  rw [BinaryIndexedTree.sum, sumLoop_spec hinv h64 (i + 1) (i + 1) 0 hi (le_refl _)]
  simp

/-- Prefix counts are monotone. -/
theorem prefixCount_mono {counts : Nat → Nat} {a b : Nat} (h : a ≤ b) :
    prefixCount counts a ≤ prefixCount counts b :=
  Finset.sum_le_sum_of_subset (Finset.range_subset.mpr h)

/-- Prefix counts split over an interval. -/
theorem prefixCount_split {counts : Nat → Nat} {a b : Nat} (h : a ≤ b) :
    prefixCount counts a + ∑ k in Finset.Ico a b, counts k = prefixCount counts b := by
  rw [prefixCount, prefixCount, Finset.range_eq_Ico]
  exact Finset.sum_Ico_consecutive counts (Nat.zero_le a) h

/-- The descent loop never moves when the requested sum is zero. -/
theorem lowerLoop_sum_zero :
    ∀ fuel tree idx bm, BinaryIndexedTree.lowerLoop fuel tree idx 0 bm = (idx, 0) := by
  intro fuel
  induction fuel with
  | zero => intro tree idx bm; rfl
  | succ fuel ih =>
    intro tree idx bm
    rw [BinaryIndexedTree.lowerLoop]
    by_cases h : bm = 0
    · rw [if_pos h]
    · rw [if_neg h, if_neg (fun hc => Nat.not_lt_zero _ hc.2)]
      exact ih tree idx (bm >>> 1)

/-- The descent loop terminates on a zero bitmask regardless of fuel. -/
theorem lowerLoop_bitmask_zero :
    ∀ fuel tree idx s, BinaryIndexedTree.lowerLoop fuel tree idx s 0 = (idx, s) := by
  intro fuel
  cases fuel with
  | zero => intro tree idx s; rfl
  | succ fuel =>
    intro tree idx s
    rw [BinaryIndexedTree.lowerLoop, if_pos rfl]

/-- The greedy binary-search descent of `lower`: starting from a prefix of the
answer `A` (the largest index in range whose prefix count is below the
requested sum), each bitmask round extends the prefix exactly when doing so
stays at or below `A`, so the loop lands on `A` with the residue
`s - prefixCount counts A`. -/
theorem lowerLoop_spec {tree : List Nat} {counts : Nat → Nat}
    (hinv : ∀ j, 1 ≤ j → j < tree.length →
      tree.getD j 0 = ∑ k in Finset.Ico (j - lowbit j) j, counts k)
    (h64 : tree.length ≤ 2 ^ 64)
    {s A : Nat} (hA : A < tree.length) (hPA : prefixCount counts A < s)
    (hmax : ∀ j, j < tree.length → prefixCount counts j < s → j ≤ A) :
    ∀ m fuel idx e, m + 1 ≤ fuel → idx = e * 2 ^ (m + 1) →
      idx ≤ A → A < idx + 2 ^ (m + 1) →
      BinaryIndexedTree.lowerLoop fuel tree idx (s - prefixCount counts idx) (2 ^ m) =
        (A, s - prefixCount counts A) := by
  intro m
  induction m with
  | zero =>
    intro fuel idx e hfuel hidx hA1 hA2
    obtain ⟨fuel, rfl⟩ : ∃ f, fuel = f + 1 := ⟨fuel - 1, by omega⟩
    rw [BinaryIndexedTree.lowerLoop, if_neg (by norm_num : (2:Nat) ^ 0 ≠ 0)]
    have hcur : idx ||| 2 ^ 0 = idx + 1 := by
      have := lor_two_pow e 0
      rw [← hidx] at this
      simpa using this
    have hPidx : prefixCount counts idx < s :=
      Nat.lt_of_le_of_lt (prefixCount_mono hA1) hPA
    rw [hcur]
    by_cases hbr : idx + 1 < tree.length ∧ tree.getD (idx + 1) 0 < s - prefixCount counts idx
    · -- branch taken: the answer is idx + 1
      obtain ⟨hlen, hlt⟩ := hbr
      have hget : tree.getD (idx + 1) 0 = prefixCount counts (idx + 1) - prefixCount counts idx := by
        have hlb : lowbit (idx + 1) = 1 := by
          have : idx + 1 = (2 * e + 1) * 2 ^ 0 := by rw [hidx]; ring
          rw [this]
          exact lowbit_odd_mul_pow e 0 (by rw [← this]; omega)
        rw [hinv (idx + 1) (by omega) hlen, hlb]
        have hsplit := @prefixCount_split counts _ _ (show idx ≤ idx + 1 by omega)
        simp only [Nat.add_sub_cancel]
        omega
      have hPc : prefixCount counts (idx + 1) < s := by
        have hmono := @prefixCount_mono counts _ _ (show idx ≤ idx + 1 by omega)
        omega
      have hAcur : idx + 1 ≤ A := hmax (idx + 1) hlen hPc
      have hAeq : A = idx + 1 := by omega
      rw [if_pos ⟨hlen, hlt⟩, hget]
      have harg : s - prefixCount counts idx - (prefixCount counts (idx + 1) - prefixCount counts idx)
          = s - prefixCount counts (idx + 1) := by
        have hmono := @prefixCount_mono counts _ _ (show idx ≤ idx + 1 by omega)
        omega
      rw [harg, Nat.shiftRight_succ, Nat.shiftRight_zero, show (2:Nat) ^ 0 / 2 = 0 from rfl,
        lowerLoop_bitmask_zero, hAeq]
    · -- branch not taken: the answer is idx
      have hAeq : A = idx := by
        by_cases hlen : idx + 1 < tree.length
        · have hget : tree.getD (idx + 1) 0 = prefixCount counts (idx + 1) - prefixCount counts idx := by
            have hlb : lowbit (idx + 1) = 1 := by
              have hodd : idx + 1 = (2 * e + 1) * 2 ^ 0 := by rw [hidx]; ring
              rw [hodd]
              exact lowbit_odd_mul_pow e 0 (by rw [← hodd]; omega)
            rw [hinv (idx + 1) (by omega) hlen, hlb]
            have hsplit := @prefixCount_split counts _ _ (show idx ≤ idx + 1 by omega)
            simp only [Nat.add_sub_cancel]
            omega
          have hge : ¬ tree.getD (idx + 1) 0 < s - prefixCount counts idx :=
            fun hc => hbr ⟨hlen, hc⟩
          -- so prefixCount (idx + 1) ≥ s, hence A ≤ idx
          by_contra hne
          have hA3 : idx + 1 ≤ A := by omega
          have : prefixCount counts (idx + 1) ≤ prefixCount counts A := prefixCount_mono hA3
          rw [hget] at hge
          have hmono := @prefixCount_mono counts _ _ (show idx ≤ idx + 1 by omega)
          omega
        · omega
      rw [if_neg hbr, Nat.shiftRight_succ, Nat.shiftRight_zero,
        show (2:Nat) ^ 0 / 2 = 0 from rfl, lowerLoop_bitmask_zero, hAeq]
  | succ m ih =>
    intro fuel idx e hfuel hidx hA1 hA2
    obtain ⟨fuel, rfl⟩ : ∃ f, fuel = f + 1 := ⟨fuel - 1, by omega⟩
    rw [BinaryIndexedTree.lowerLoop,
      if_neg (show (2:Nat) ^ (m + 1) ≠ 0 from Nat.pos_iff_ne_zero.mp (Nat.pos_pow_of_pos _ (by norm_num)))]
    have hcur : idx ||| 2 ^ (m + 1) = idx + 2 ^ (m + 1) := by
      have := lor_two_pow e (m + 1)
      rw [← hidx] at this
      exact this
    have hPidx : prefixCount counts idx < s :=
      Nat.lt_of_le_of_lt (prefixCount_mono hA1) hPA
    have hshift : (2:Nat) ^ (m + 1) >>> 1 = 2 ^ m := by
      rw [Nat.shiftRight_succ, Nat.shiftRight_zero]
      have : (2:Nat) ^ (m + 1) = 2 ^ m * 2 := by ring
      omega
    rw [hcur, hshift]
    set c := idx + 2 ^ (m + 1) with hc
    by_cases hbr : c < tree.length ∧ tree.getD c 0 < s - prefixCount counts idx
    · obtain ⟨hlen, hlt⟩ := hbr
      have hget : tree.getD c 0 = prefixCount counts c - prefixCount counts idx := by
        have hlb : lowbit c = 2 ^ (m + 1) := by
          have hodd : c = (2 * e + 1) * 2 ^ (m + 1) := by rw [hc, hidx]; ring
          rw [hodd]
          exact lowbit_odd_mul_pow e (m + 1) (by rw [← hodd]; omega)
        rw [hinv c (by omega) hlen, hlb]
        have hsplit := @prefixCount_split counts _ _ (show idx ≤ c by omega)
        have hsub : c - 2 ^ (m + 1) = idx := by omega
        rw [hsub]
        omega
      have hPc : prefixCount counts c < s := by
        have hmono := @prefixCount_mono counts _ _ (show idx ≤ c by omega)
        omega
      have hAcur : c ≤ A := hmax c hlen hPc
      rw [if_pos ⟨hlen, hlt⟩, hget]
      have harg : s - prefixCount counts idx - (prefixCount counts c - prefixCount counts idx)
          = s - prefixCount counts c := by
        have hmono := @prefixCount_mono counts _ _ (show idx ≤ c by omega)
        omega
      rw [harg]
      exact ih fuel c (2 * e + 1) (by omega) (by rw [hc, hidx]; ring) hAcur
        (by have : (2:Nat) ^ (m + 1 + 1) = 2 ^ (m + 1) + 2 ^ (m + 1) := by ring
            omega)
    · have hAcur : A < c := by
        by_cases hlen : c < tree.length
        · have hget : tree.getD c 0 = prefixCount counts c - prefixCount counts idx := by
            have hlb : lowbit c = 2 ^ (m + 1) := by
              have hodd : c = (2 * e + 1) * 2 ^ (m + 1) := by rw [hc, hidx]; ring
              rw [hodd]
              exact lowbit_odd_mul_pow e (m + 1) (by rw [← hodd]; omega)
            rw [hinv c (by omega) hlen, hlb]
            have hsplit := @prefixCount_split counts _ _ (show idx ≤ c by omega)
            have hsub : c - 2 ^ (m + 1) = idx := by omega
            rw [hsub]
            omega
          have hge : ¬ tree.getD c 0 < s - prefixCount counts idx := fun hcon => hbr ⟨hlen, hcon⟩
          by_contra hne
          have hA3 : c ≤ A := by omega
          have hmono2 : prefixCount counts c ≤ prefixCount counts A := prefixCount_mono hA3
          rw [hget] at hge
          have hmono := @prefixCount_mono counts _ _ (show idx ≤ c by omega)
          omega
        · omega
      rw [if_neg hbr]
      exact ih fuel idx (2 * e) (by omega) (by rw [hidx]; ring) hA1 (by omega)

/-- `lower 0` returns index 0 whatever the state. -/
theorem lower_zero (t : BinaryIndexedTree) : t.lower 0 = some 0 := by
  rw [BinaryIndexedTree.lower, lowerLoop_sum_zero]
  rfl

/-- The in-place build identity: a Fenwick cell value is one more than the sum
of the `lowbit`s of its chain children (the cells `p` with `p + lowbit p = q`),
which is how `increaseAll` accumulates an all-ones count vector. -/
theorem lowbit_children {q : Nat} (h1 : 1 ≤ q) (h64 : q < 2 ^ 64) :
    lowbit q = 1 + ∑ p in Finset.Icc 1 (q - 1), if p + lowbit p = q then lowbit p else 0 := by
  obtain ⟨k, c, hq, hlbq⟩ := lowbit_spec (by omega) h64
  have h2kq : (2:Nat) ^ k ≤ q := by
    rw [hq]
    exact Nat.le_mul_of_pos_left _ (by omega)
  have himg : ∀ j, j < k →
      lowbit (q - 2 ^ j) = 2 ^ j ∧ (q - 2 ^ j) + lowbit (q - 2 ^ j) = q ∧
        1 ≤ q - 2 ^ j ∧ q - 2 ^ j ≤ q - 1 := by
    intro j hj
    have hsplit : (2:Nat) ^ k = 2 ^ (k - j) * 2 ^ j := by
      rw [← pow_add]
      congr 1
      omega
    have hjk2 : (2:Nat) ^ (j + 1) ≤ 2 ^ k := Nat.pow_le_pow_right (by norm_num) (by omega)
    have hj2 : (2:Nat) ^ (j + 1) = 2 ^ j + 2 ^ j := by ring
    have hpow1 : 1 ≤ (2:Nat) ^ (k - j - 1) := Nat.one_le_two_pow
    have hX1 : 1 ≤ (2 * c + 1) * 2 ^ (k - j - 1) :=
      Nat.one_le_iff_ne_zero.mpr (Nat.mul_ne_zero (by omega) (by omega))
    have hqj : q - 2 ^ j = (2 * ((2 * c + 1) * 2 ^ (k - j - 1) - 1) + 1) * 2 ^ j := by
      have hkj2 : (2:Nat) ^ (k - j) = 2 * 2 ^ (k - j - 1) := by
        rw [← pow_succ']
        congr 1
        omega
      have hq2 : q = (2 * c + 1) * 2 ^ (k - j) * 2 ^ j := by
        rw [hq, hsplit, mul_assoc]
      have hassoc : (2 * c + 1) * 2 ^ (k - j) = 2 * ((2 * c + 1) * 2 ^ (k - j - 1)) := by
        rw [hkj2]
        ring
      have hexpand : (2 * ((2 * c + 1) * 2 ^ (k - j - 1) - 1) + 1) * 2 ^ j
          = (2 * ((2 * c + 1) * 2 ^ (k - j - 1)) - 1) * 2 ^ j := by
        congr 1
        omega
      rw [hq2, hassoc, hexpand, Nat.sub_mul, one_mul]
    have hlbqj : lowbit (q - 2 ^ j) = 2 ^ j := by
      have hlt : (2 * ((2 * c + 1) * 2 ^ (k - j - 1) - 1) + 1) * 2 ^ j < 2 ^ 64 := by
        rw [← hqj]
        exact lt_of_le_of_lt (Nat.sub_le _ _) h64
      rw [hqj]
      exact lowbit_odd_mul_pow _ _ hlt
    have h2jq : 2 ^ j + 2 ^ j ≤ q := by omega
    have hj1pow : 1 ≤ (2:Nat) ^ j := Nat.one_le_two_pow
    refine ⟨hlbqj, by rw [hlbqj]; omega, by omega, by omega⟩
  have hrev : ∀ p, 1 ≤ p → p ≤ q - 1 → p + lowbit p = q →
      ∃ j, j < k ∧ p = q - 2 ^ j := by
    intro p hp1 hp2 hpq
    obtain ⟨u, b, hpdecomp, hlbu⟩ := lowbit_spec (show 0 < p by omega) (by omega)
    refine ⟨u, ?_, by rw [← hlbu]; omega⟩
    by_contra hu
    push_neg at hu
    have hqu : q = (2 * b + 2) * 2 ^ u := by
      rw [← hpq, hlbu, hpdecomp]
      ring
    have hcancel : 2 * c + 1 = (2 * b + 2) * 2 ^ (u - k) := by
      have hsplitu : (2:Nat) ^ u = 2 ^ (u - k) * 2 ^ k := by
        rw [← pow_add]
        congr 1
        omega
      have : (2 * c + 1) * 2 ^ k = (2 * b + 2) * 2 ^ (u - k) * 2 ^ k := by
        rw [← hq, hqu, hsplitu, mul_assoc]
      exact Nat.eq_of_mul_eq_mul_right (Nat.pos_pow_of_pos _ (by norm_num)) this
    have heven : (2 * b + 2) * 2 ^ (u - k) = 2 * ((b + 1) * 2 ^ (u - k)) := by ring
    omega
  rw [hlbq]
  have hfilter : (∑ p in Finset.Icc 1 (q - 1), if p + lowbit p = q then lowbit p else 0)
      = ∑ p in (Finset.Icc 1 (q - 1)).filter (fun p => p + lowbit p = q), lowbit p :=
    (Finset.sum_filter _ _).symm
  have hbij : ∑ p in (Finset.Icc 1 (q - 1)).filter (fun p => p + lowbit p = q), lowbit p
      = ∑ j in Finset.range k, 2 ^ j := by
    symm
    apply Finset.sum_bij (fun j _ => q - 2 ^ j)
    · intro j hj
      obtain ⟨hl, hs, hb1, hb2⟩ := himg j (Finset.mem_range.mp hj)
      rw [Finset.mem_filter, Finset.mem_Icc]
      exact ⟨⟨hb1, hb2⟩, hs⟩
    · intro j1 hj1 j2 hj2 heq
      have h1lt : (2:Nat) ^ j1 ≤ q := by
        have := Nat.pow_le_pow_right (show 1 ≤ 2 by norm_num)
          (show j1 ≤ k by exact Nat.le_of_lt (Finset.mem_range.mp hj1))
        omega
      have h2lt : (2:Nat) ^ j2 ≤ q := by
        have := Nat.pow_le_pow_right (show 1 ≤ 2 by norm_num)
          (show j2 ≤ k by exact Nat.le_of_lt (Finset.mem_range.mp hj2))
        omega
      have : (2:Nat) ^ j1 = 2 ^ j2 := by omega
      exact Nat.pow_right_injective (by norm_num) this
    · intro p hp
      rw [Finset.mem_filter, Finset.mem_Icc] at hp
      obtain ⟨j, hjk, hpj⟩ := hrev p hp.1.1 hp.1.2 hp.2
      exact ⟨j, Finset.mem_range.mpr hjk, hpj.symm⟩
    · intro j hj
      exact (himg j (Finset.mem_range.mp hj)).1.symm
  rw [hfilter, hbij, sum_two_pow]
  have : (1:Nat) ≤ 2 ^ k := Nat.one_le_two_pow
  omega

/-- The build loop preserves the vector length. -/
theorem length_increaseAllLoop :
    ∀ fuel tree i, (BinaryIndexedTree.increaseAllLoop fuel tree i).length = tree.length := by
  intro fuel
  induction fuel with
  | zero => intro tree i; rfl
  | succ fuel ih =>
    intro tree i
    rw [BinaryIndexedTree.increaseAllLoop]
    by_cases h : i < tree.length - 1
    · rw [if_pos h, ih]
      by_cases h2 : (i + 1) + lowbit (i + 1) < (tree.set (i + 1) (tree.getD (i + 1) 0 + 1)).length
      · rw [if_pos h2, List.length_set, List.length_set]
      · rw [if_neg h2, List.length_set]
    · rw [if_neg h]

/-- The invariant of the `increaseAll` build loop: processed cells hold their
`lowbit`, unprocessed cells hold the partial sums already pushed up from their
chain children. -/
theorem increaseAllLoop_spec {n : Nat} (h64 : n + 1 ≤ 2 ^ 64) :
    ∀ fuel m tree, tree.length = n + 1 →
      (∀ j, 1 ≤ j → j ≤ m → tree.getD j 0 = lowbit j) →
      (∀ j, m < j → j ≤ n →
        tree.getD j 0 = ∑ p in Finset.Icc 1 m, if p + lowbit p = j then lowbit p else 0) →
      n - m ≤ fuel → m ≤ n →
      ∀ j, 1 ≤ j → j ≤ n →
        (BinaryIndexedTree.increaseAllLoop fuel tree m).getD j 0 = lowbit j := by
  intro fuel
  induction fuel with
  | zero =>
    intro m tree hlen hdone hpend hfuel hmn j hj1 hjn
    have hmn2 : m = n := by omega
    exact hdone j hj1 (by omega)
  | succ fuel ih =>
    intro m tree hlen hdone hpend hfuel hmn j hj1 hjn
    rw [BinaryIndexedTree.increaseAllLoop]
    by_cases hguard : m < tree.length - 1
    · rw [if_pos hguard]
      have hmn2 : m < n := by omega
      have hm1n : m + 1 ≤ n := by omega
      have hm1len : m + 1 < tree.length := by omega
      have hlb1 : tree.getD (m + 1) 0 + 1 = lowbit (m + 1) := by
        rw [hpend (m + 1) (by omega) hm1n,
          lowbit_children (show 1 ≤ m + 1 by omega) (by omega)]
        simp only [Nat.add_sub_cancel]
        omega
      set t1 := tree.set (m + 1) (tree.getD (m + 1) 0 + 1) with ht1
      have ht1len : t1.length = n + 1 := by rw [ht1, List.length_set, hlen]
      have ht1get : ∀ j, t1.getD j 0 = if j = m + 1 then lowbit (m + 1) else tree.getD j 0 := by
        intro j
        by_cases hje : j = m + 1
        · rw [if_pos hje, hje, ht1, getD_set_self (by omega), hlb1]
        · rw [if_neg hje, ht1, getD_set_ne (fun hc => hje hc.symm)]
      have hlbm1 : 0 < lowbit (m + 1) := lowbit_pos (by omega) (by omega)
      set idx := (m + 1) + lowbit (m + 1) with hidx
      set t2 := if idx < t1.length then t1.set idx (t1.getD idx 0 + t1.getD (m + 1) 0) else t1
        with ht2
      have ht2len : t2.length = n + 1 := by
        rw [ht2]
        by_cases hc : idx < t1.length
        · rw [if_pos hc, List.length_set, ht1len]
        · rw [if_neg hc, ht1len]
      have ht2get : ∀ j, j ≤ n →
          t2.getD j 0 = if j = m + 1 then lowbit (m + 1)
            else if j = idx then tree.getD j 0 + lowbit (m + 1) else tree.getD j 0 := by
        intro j hjn2
        rw [ht2]
        by_cases hc : idx < t1.length
        · rw [if_pos hc]
          by_cases hje : j = idx
          · rw [if_neg (by omega), if_pos hje, hje, getD_set_self (by omega),
              ht1get idx, if_neg (by omega), ht1get (m + 1), if_pos rfl]
          · rw [getD_set_ne (fun hc2 => hje hc2.symm), ht1get j]
            by_cases hjm : j = m + 1
            · rw [if_pos hjm, if_pos hjm]
            · rw [if_neg hjm, if_neg hjm, if_neg hje]
        · rw [if_neg hc]
          have hjne : j ≠ idx := by
            rw [ht1len] at hc
            omega
          rw [ht1get j, if_neg hjne]
      refine ih (m + 1) t2 ht2len ?_ ?_ (by omega) hm1n j hj1 hjn
      · intro j2 hj21 hj2m
        rw [ht2get j2 (by omega)]
        by_cases hje : j2 = m + 1
        · rw [if_pos hje, hje]
        · rw [if_neg hje, if_neg (by omega), hdone j2 hj21 (by omega)]
      · intro j2 hj2m hj2n
        rw [ht2get j2 hj2n]
        rw [if_neg (by omega)]
        rw [Finset.sum_Icc_succ_top (show 1 ≤ m + 1 by omega)]
        by_cases hje : j2 = idx
        · rw [if_pos hje, hpend j2 (by omega) hj2n, hje]
          rw [if_pos (by omega)]
        · rw [if_neg hje, hpend j2 (by omega) hj2n]
          rw [if_neg (by omega), Nat.add_zero]
    · rw [if_neg hguard]
      have hmn2 : m = n := by omega
      exact hdone j hj1 (by omega)

/-- After `increaseAll` on a fresh tree every slot counts as present. -/
theorem Coherent_increaseAll {n : Nat} (h64 : n + 1 ≤ 2 ^ 64) :
    Coherent (BinaryIndexedTree.make n).increaseAll (fun k => if k < n then 1 else 0) := by
  have hlen : (BinaryIndexedTree.make n).increaseAll.tree.length = n + 1 := by
    show (BinaryIndexedTree.increaseAllLoop _ _ _).length = n + 1
    rw [length_increaseAllLoop]
    simp [BinaryIndexedTree.make]
  refine ⟨by omega, by omega, ?_, ?_⟩
  · rw [hlen]
    show msbLoop (n + 1) (n + 1) = Nat.log2 (n + 1)
    exact msbLoop_eq_log2 (n + 1) (n + 1) (le_refl _)
  · intro j hj1 hjlen
    rw [hlen] at hjlen
    have hget : (BinaryIndexedTree.make n).increaseAll.tree.getD j 0 = lowbit j := by
      show (BinaryIndexedTree.increaseAllLoop _ _ _).getD j 0 = lowbit j
      refine increaseAllLoop_spec h64 (List.replicate (n + 1) 0).length 0
        (List.replicate (n + 1) 0) (by simp) ?_ ?_ ?_ ?_ j hj1 (by omega)
      · intro j2 hj21 hj20
        omega
      · intro j2 hj20 hj2n
        rw [show Finset.Icc 1 0 = (∅ : Finset Nat) from rfl, Finset.sum_empty]
        simp [List.getD_eq_getElem?_getD, List.getElem?_replicate]
        split <;> rfl
      · simp
      · omega
    rw [hget]
    have hlble : lowbit j ≤ j := lowbit_le j
    have hsum : ∑ k in Finset.Ico (j - lowbit j) j, (fun k => if k < n then 1 else 0) k
        = ∑ k in Finset.Ico (j - lowbit j) j, 1 := by
      apply Finset.sum_congr rfl
      intro k hk
      rw [Finset.mem_Ico] at hk
      simp only
      rw [if_pos (by omega)]
    rw [hsum, Finset.sum_const, Nat.card_Ico, smul_eq_mul, mul_one]
    omega

/-- `lower` on a coherent tree: with `A` the largest in-range index whose
prefix count is below `s`, the result is `some A` unless the residue exceeds
one. -/
theorem lower_spec {t : BinaryIndexedTree} {counts : Nat → Nat}
    (hco : Coherent t counts) {s A : Nat} (hs : 1 ≤ s)
    (hA : A < t.tree.length) (hPA : prefixCount counts A < s)
    (hmax : ∀ j, j < t.tree.length → prefixCount counts j < s → j ≤ A) :
    t.lower s = if 1 < s - prefixCount counts A then none else some A := by
  obtain ⟨hpos, h64, hmsb, hinv⟩ := hco
  have hA2 : A < 0 + 2 ^ (t.most_significant_bit + 1) := by
    have hlog := (Nat.log2_lt (show t.tree.length ≠ 0 by omega)).mp
      (show Nat.log2 t.tree.length < Nat.log2 t.tree.length + 1 by omega)
    rw [hmsb]
    omega
  have hP0 : prefixCount counts 0 = 0 := by simp [prefixCount]
  have hfuel : t.most_significant_bit + 1 ≤ 2 ^ t.most_significant_bit + 1 := by
    have := Nat.lt_two_pow t.most_significant_bit
    omega
  have hloop := lowerLoop_spec hinv h64 hA hPA hmax t.most_significant_bit
    (2 ^ t.most_significant_bit + 1) 0 0 hfuel (by ring) (Nat.zero_le A) hA2
  rw [hP0, Nat.sub_zero] at hloop
  rw [BinaryIndexedTree.lower, Nat.one_shiftLeft, hloop]

/-- Every base62 character of a digit in range is an ASCII digit or letter. -/
theorem encodeBase62_base62 : ∀ d, d < 62 → isBase62Char (encodeBase62 d) = true := by decide

/-- `decodeBase62` inverts `encodeBase62` on digits in range. -/
theorem decodeBase62_encodeBase62 : ∀ d, d < 62 → decodeBase62 (encodeBase62 d) = d := by decide

/-- Base62 characters are never the delimiter. -/
theorem isBase62Char_ne_delimiter {c : Nat} (h : isBase62Char c = true) :
    c ≠ BOOTSTRING_DELIMITER := by
  intro hc
  subst hc
  exact absurd h (by decide)

/-- Every character emitted by the variable length loop is a base62 character. -/
theorem encodeVariableLengthLoop_chars :
    ∀ fuel n c, c ∈ encodeVariableLengthLoop fuel n → isBase62Char c = true := by
  intro fuel
  induction fuel with
  | zero => intro n c hc; simp [encodeVariableLengthLoop] at hc
  | succ fuel ih =>
    intro n c hc
    unfold encodeVariableLengthLoop at hc
    by_cases hn : n < BOOTSTRING_THRESHOLD
    · rw [if_pos hn] at hc
      simp only [List.mem_singleton] at hc
      subst hc
      exact encodeBase62_base62 n (by unfold BOOTSTRING_THRESHOLD at hn; omega)
    · rw [if_neg hn] at hc
      rcases List.mem_cons.mp hc with h | h
      · subst h
        refine encodeBase62_base62 _ ?_
        have := Nat.mod_lt (n - BOOTSTRING_THRESHOLD)
          (y := BASE62 - BOOTSTRING_THRESHOLD) (by decide)
        unfold BOOTSTRING_THRESHOLD BASE62 at *
        omega
      · exact ih _ _ h

/-- Every character of an encoded variable length integer is base62. -/
theorem encodeVariableLength_chars {n c : Nat} (h : c ∈ encodeVariableLength n) :
    isBase62Char c = true :=
  encodeVariableLengthLoop_chars 64 n c h

/-- The variable length loop with nonzero fuel emits at least one digit. -/
theorem encodeVariableLengthLoop_ne_nil (fuel n : Nat) :
    encodeVariableLengthLoop (fuel + 1) n ≠ [] := by
  unfold encodeVariableLengthLoop
  split <;> simp

/-- An encoded variable length integer is never empty. -/
theorem encodeVariableLength_ne_nil (n : Nat) : encodeVariableLength n ≠ [] :=
  encodeVariableLengthLoop_ne_nil 63 n

/-- Character-level facts about `encodeBase62` on digits in range. -/
theorem encodeBase62_range : ∀ d, d < 62 → 48 ≤ encodeBase62 d ∧ encodeBase62 d ≤ 122 := by
  decide

/-- The decoding loop inverts the encoding loop: reading the digit stream of
`m` (followed by anything) accumulates exactly `number + m * weight` and stops
there, provided the fuel covers `m` and the accumulator cannot overflow. -/
theorem decodeVariableLengthLoop_encode :
    ∀ fuel m, m < 31 ^ (fuel + 1) → ∀ number weight rest,
      1 ≤ weight → number + m * weight ≤ U64_MAX →
      decodeVariableLengthLoop (encodeVariableLengthLoop (fuel + 1) m ++ rest) number weight =
        some (number + m * weight, rest) := by
  have step_small : ∀ m number weight rest, m < 31 → 1 ≤ weight → number + m * weight ≤ U64_MAX →
      decodeVariableLengthLoop (encodeBase62 m :: rest) number weight =
        some (number + m * weight, rest) := by
    intro m number weight rest hm hw hno
    have hrange := encodeBase62_range m (by omega)
    have hdec := decodeBase62_encodeBase62 m (by omega)
    unfold decodeVariableLengthLoop
    rw [if_neg (by unfold MAX_CODE_POINT; omega)]
    rw [Nat.mod_eq_of_lt (by omega), hdec]
    rw [if_neg (by unfold BASE62; omega)]
    rw [if_neg ?_, if_pos (by unfold BOOTSTRING_THRESHOLD; omega)]
    have : m ≤ (U64_MAX - number) / weight := by
      rw [Nat.le_div_iff_mul_le (by omega)]
      omega
    omega
  intro fuel
  induction fuel with
  | zero =>
    intro m hm number weight rest hw hno
    unfold encodeVariableLengthLoop
    rw [if_pos (by unfold BOOTSTRING_THRESHOLD; omega)]
    exact step_small m number weight rest (by omega) hw hno
  | succ fuel ih =>
    intro m hm number weight rest hw hno
    unfold encodeVariableLengthLoop
    by_cases hsmall : m < BOOTSTRING_THRESHOLD
    · rw [if_pos hsmall]
      exact step_small m number weight rest (by unfold BOOTSTRING_THRESHOLD at hsmall; omega) hw hno
    · rw [if_neg hsmall]
      unfold BOOTSTRING_THRESHOLD at hsmall
      set r := (m - BOOTSTRING_THRESHOLD) % (BASE62 - BOOTSTRING_THRESHOLD) with hr
      set m' := (m - BOOTSTRING_THRESHOLD) / (BASE62 - BOOTSTRING_THRESHOLD) with hm'
      have hr31 : r < 31 := Nat.mod_lt _ (by decide)
      have hD : 31 + r ≤ m := by
        have : r ≤ m - 31 := by
          rw [hr]
          exact Nat.mod_le _ _
        omega
      have hsplit : m - 31 = 31 * m' + r := by
        rw [hm', hr]
        unfold BOOTSTRING_THRESHOLD BASE62
        omega
      have hrange := encodeBase62_range (BOOTSTRING_THRESHOLD + r) (by unfold BOOTSTRING_THRESHOLD; omega)
      have hdec := decodeBase62_encodeBase62 (BOOTSTRING_THRESHOLD + r) (by unfold BOOTSTRING_THRESHOLD; omega)
      rw [List.cons_append]
      unfold decodeVariableLengthLoop
      rw [if_neg (by unfold MAX_CODE_POINT; omega)]
      rw [Nat.mod_eq_of_lt (by omega), hdec]
      rw [if_neg (by unfold BASE62 BOOTSTRING_THRESHOLD; omega)]
      rw [if_neg ?_, if_neg (by unfold BOOTSTRING_THRESHOLD; omega), if_neg ?_]
      · have hbound : m' < 31 ^ (fuel + 1) := by
          have h31 : (0:Nat) < 31 := by decide
          rw [hm']
          have : m - BOOTSTRING_THRESHOLD < 31 * 31 ^ (fuel + 1) := by
            unfold BOOTSTRING_THRESHOLD
            have : (31:Nat) * 31 ^ (fuel + 1) = 31 ^ (fuel + 1 + 1) := by ring
            omega
          unfold BASE62 BOOTSTRING_THRESHOLD
          exact Nat.div_lt_of_lt_mul (by omega)
        have heq : number + (BOOTSTRING_THRESHOLD + r) * weight + m' * (weight * (BASE62 - BOOTSTRING_THRESHOLD)) =
            number + m * weight := by
          unfold BOOTSTRING_THRESHOLD BASE62
          have : m = 31 + (31 * m' + r) := by omega
          rw [this]
          ring
        rw [ih m' hbound _ _ rest (by unfold BASE62 BOOTSTRING_THRESHOLD; omega) (by omega), heq]
      · -- the weight growth check does not fire: 31 * weight ≤ m * weight ≤ U64_MAX
        have h1 : 31 * weight ≤ m * weight := Nat.mul_le_mul_right weight (by omega)
        have h2 : weight ≤ U64_MAX / (BASE62 - BOOTSTRING_THRESHOLD) := by
          unfold BASE62 BOOTSTRING_THRESHOLD
          rw [Nat.le_div_iff_mul_le (by decide)]
          omega
        omega
      · -- the accumulator check does not fire: the digit is at most m
        have h1 : (BOOTSTRING_THRESHOLD + r) * weight ≤ m * weight :=
          Nat.mul_le_mul_right weight (by unfold BOOTSTRING_THRESHOLD; omega)
        have h2 : BOOTSTRING_THRESHOLD + r ≤ (U64_MAX - number) / weight := by
          rw [Nat.le_div_iff_mul_le (by omega)]
          unfold BOOTSTRING_THRESHOLD at h1 ⊢
          omega
        omega

/-- C7 (confirmed): for every 64-bit integer `n`, decoding the digit stream
produced by the variable length encoder yields exactly `n`, consumes exactly
the emitted digits (any `rest` is left untouched), stopping at the first digit
below the threshold. -/
theorem C7_variable_length_roundtrip :
    ∀ (n : Nat) (rest : List Nat), n ≤ U64_MAX →
      decodeVariableLength (encodeVariableLength n ++ rest) = some (n, rest) := by
  intro n rest hn
  have hlt : n < 31 ^ (63 + 1) := by
    have : U64_MAX < 31 ^ 64 := by norm_num [U64_MAX]
    omega
  have := decodeVariableLengthLoop_encode 63 n hlt 0 1 rest (by omega) (by omega)
  unfold decodeVariableLength encodeVariableLength
  simpa using this

/-- C7 witness: the two-digit stream of 100, followed by junk, decodes back
to 100 leaving the junk unconsumed. -/
theorem C7_witness :
    decodeVariableLength (encodeVariableLength 100 ++ [120]) = some (100, [120]) :=
  C7_variable_length_roundtrip 100 [120] (by norm_num [U64_MAX])

/-- The invalid marker is not continue-eligible: immediate for ASCII, and an
assumption (true of the real Unicode tables, where U+FFFD is a symbol, not an
identifier character) for UTF8_XID. -/
theorem IsContinue_invalid {U : UnicodeData} {format : TranscodingFormat}
    (hX : U.xidContinue INVALID_CODE_POINT = false) :
    IsContinue U INVALID_CODE_POINT format = false := by
  cases format with
  | ASCII => rfl
  | UTF8_XID => exact hX

/-- If every code point is continue-eligible then the extended list is empty. -/
theorem extendedFrom_nil {U : UnicodeData} {format : TranscodingFormat} :
    ∀ (cs : List Nat), (∀ v ∈ cs, IsContinue U v format = true) →
      ∀ p, extendedFrom U format cs p = [] := by
  intro cs
  induction cs with
  | nil => intro _ _; rfl
  | cons c rest ih =>
    intro hall p
    unfold extendedFrom
    rw [if_pos (hall c (List.mem_cons_self c rest))]
    exact ih (fun v hv => hall v (List.mem_cons_of_mem c hv)) (p + 1)

/-- On an all-continue input the bootstring output is the input plus the
trailing delimiter. -/
theorem encodeBootstring_all_continue {U : UnicodeData} {format : TranscodingFormat}
    {c : Nat} {rest : List Nat}
    (hX : U.xidContinue INVALID_CODE_POINT = false)
    (hall : ∀ v ∈ c :: rest, IsContinue U v format = true) :
    encodeBootstring U (c :: rest) format = some (c :: rest ++ [BOOTSTRING_DELIMITER]) := by
  have hnoinv : INVALID_CODE_POINT ∉ c :: rest := by
    intro hmem
    have := hall _ hmem
    rw [IsContinue_invalid hX] at this
    exact Bool.false_ne_true this
  have hskel : skeletonOf U format (c :: rest) = c :: rest :=
    List.filter_eq_self.mpr hall
  have hext : extendedOf U format (c :: rest) = [] :=
    extendedFrom_nil (c :: rest) hall 0
  unfold encodeBootstring
  rw [if_neg hnoinv]
  unfold sortedExtendedOf
  rw [hext, hskel]
  simp [deltaLoop, List.insertionSort]

/-- A successful `encodeBootstring` run splits into the skeleton (with its
delimiter when non-empty) followed by the concatenated delta encodings. -/
theorem encodeBootstring_structure {U : UnicodeData} {format : TranscodingFormat}
    {cs out : List Nat} (h : encodeBootstring U cs format = some out) :
    INVALID_CODE_POINT ∉ cs ∧
      ∃ ds, deltaLoop (seededTreeOf U format cs) 0 (skeletonOf U format cs).length
          (sortedExtendedOf U format cs) = some ds ∧
        out = (if skeletonOf U format cs = [] then skeletonOf U format cs
            else skeletonOf U format cs ++ [BOOTSTRING_DELIMITER]) ++
          (ds.map encodeVariableLength).flatten := by
  by_cases hin : INVALID_CODE_POINT ∈ cs
  · rw [encodeBootstring, if_pos hin] at h
    exact absurd h (by simp)
  · refine ⟨hin, ?_⟩
    rw [encodeBootstring, if_neg hin] at h
    dsimp only at h
    split at h
    · exact absurd h (by simp)
    · rename_i ds hds
      exact ⟨ds, hds, (Option.some_injective _ h).symm⟩

/-- The delta loop only returns an empty delta list on an empty extended list. -/
theorem deltaLoop_eq_some_nil {tree : BinaryIndexedTree} {prev enc : Nat}
    {ext : List (Nat × Nat)} (h : deltaLoop tree prev enc ext = some []) : ext = [] := by
  cases ext with
  | nil => rfl
  | cons e rest =>
    exfalso
    obtain ⟨cp, pos⟩ := e
    rw [deltaLoop] at h
    split at h
    · exact absurd h (by simp)
    · split at h <;> simp_all

/-- An empty extended list means every code point was continue-eligible. -/
theorem all_continue_of_extendedFrom_nil {U : UnicodeData} {format : TranscodingFormat} :
    ∀ (cs : List Nat) (p : Nat), extendedFrom U format cs p = [] →
      ∀ v ∈ cs, IsContinue U v format = true := by
  intro cs
  induction cs with
  | nil => simp
  | cons c rest ih =>
    intro p h v hv
    rw [extendedFrom] at h
    by_cases hc : IsContinue U c format = true
    · rw [if_pos hc] at h
      rcases List.mem_cons.mp hv with rfl | hv'
      · exact hc
      · exact ih (p + 1) h v hv'
    · rw [if_neg hc] at h
      exact absurd h (by simp)

/-- An empty sorted extended list means an empty extended list. -/
theorem extendedOf_nil_of_sorted_nil {U : UnicodeData} {format : TranscodingFormat}
    {cs : List Nat} (h : sortedExtendedOf U format cs = []) : extendedOf U format cs = [] := by
  have hperm := List.perm_insertionSort pairLE (extendedOf U format cs)
  rw [sortedExtendedOf] at h
  rw [h] at hperm
  exact hperm.symm.eq_nil

/-- Every character in the concatenated delta encodings is base62. -/
theorem mem_flatten_base62 {ds : List Nat} {c : Nat}
    (h : c ∈ (ds.map encodeVariableLength).flatten) : isBase62Char c = true := by
  obtain ⟨l, hl, hc⟩ := List.mem_flatten.mp h
  obtain ⟨n, _, rfl⟩ := List.mem_map.mp hl
  exact encodeVariableLength_chars hc

/-- A non-empty list all of whose members satisfy `P` has a last element
satisfying `P`. -/
theorem exists_getLast_prop {l : List Nat} (h : l ≠ []) {P : Nat → Prop}
    (hP : ∀ c ∈ l, P c) : ∃ c, l.getLast? = some c ∧ P c := by
  induction l with
  | nil => exact absurd rfl h
  | cons a t ih =>
    cases t with
    | nil => exact ⟨a, rfl, hP a (List.mem_singleton_self a)⟩
    | cons b m =>
      obtain ⟨c, hc1, hc2⟩ := ih (by simp) (fun c hc => hP c (List.mem_cons_of_mem a hc))
      exact ⟨c, by rw [List.getLast?_cons_cons]; exact hc1, hc2⟩

/-- A non-empty delta list yields a non-empty character stream whose last
character is base62. -/
theorem flatten_getLast_base62 {ds : List Nat} (h : ds ≠ []) :
    (ds.map encodeVariableLength).flatten ≠ [] ∧
      ∃ c, ((ds.map encodeVariableLength).flatten).getLast? = some c ∧ isBase62Char c = true := by
  have hne : (ds.map encodeVariableLength).flatten ≠ [] := by
    cases ds with
    | nil => exact absurd rfl h
    | cons d tl =>
      simp only [List.map_cons, List.flatten_cons]
      intro hctr
      exact encodeVariableLength_ne_nil d (List.append_eq_nil.mp hctr).1
  exact ⟨hne, exists_getLast_prop hne (fun c hc => mem_flatten_base62 hc)⟩

/-- ASCII-continue characters are continue-eligible in both formats, under the
true-of-Unicode assumption for UTF8_XID. -/
theorem IsContinue_of_ascii {U : UnicodeData} {format : TranscodingFormat} {c : Nat}
    (hA : ∀ x, IsASCIIContinue x = true → U.xidContinue x = true)
    (hc : IsASCIIContinue c = true) : IsContinue U c format = true := by
  cases format with
  | ASCII => exact hc
  | UTF8_XID => exact hA c hc

/-- Base62 characters are ASCII-continue. -/
theorem base62_ascii_continue {c : Nat} (h : isBase62Char c = true) :
    IsASCIIContinue c = true := by
  rw [isBase62Char, decide_eq_true_eq] at h
  rw [IsASCIIContinue, decide_eq_true_eq]
  omega

/-- The header's first character `'t'` is start-eligible in both formats. -/
theorem IsStart_header {U : UnicodeData} {format : TranscodingFormat} :
    IsStart U 116 format = true := by
  cases format with
  | ASCII => rfl
  | UTF8_XID => rw [IsStart]; rw [(by rfl : IsASCIIStart 116 = true)]; rfl

/-- Every character of a successful bootstring output is continue-eligible. -/
theorem encodeBootstring_mem_continue {U : UnicodeData} {format : TranscodingFormat}
    {cs out : List Nat} (h : encodeBootstring U cs format = some out)
    (hA : ∀ x, IsASCIIContinue x = true → U.xidContinue x = true) :
    ∀ c ∈ out, IsContinue U c format = true := by
  obtain ⟨-, ds, -, hstruct⟩ := encodeBootstring_structure h
  intro c hc
  rw [hstruct] at hc
  rcases List.mem_append.mp hc with hbase | hflat
  · by_cases hskel : skeletonOf U format cs = []
    · rw [if_pos hskel, hskel] at hbase
      exact absurd hbase (by simp)
    · rw [if_neg hskel] at hbase
      rcases List.mem_append.mp hbase with hsk | hdel
      · exact (List.mem_filter.mp hsk).2
      · rw [List.mem_singleton.mp hdel]
        exact IsContinue_of_ascii hA (by rfl)
  · exact IsContinue_of_ascii hA (base62_ascii_continue (mem_flatten_base62 hflat))

/-- The header-prefixed form of a successful bootstring output is a legal
identifier. -/
theorem prefixed_legal {U : UnicodeData} {format : TranscodingFormat} {cs out : List Nat}
    (h : encodeBootstring U cs format = some out)
    (hA : ∀ x, IsASCIIContinue x = true → U.xidContinue x = true) :
    isLegalIdentifier U format (BOOTSTRING_HEADER ++ out) = true := by
  have hmem := encodeBootstring_mem_continue h hA
  show isLegalIdentifier U format (116 :: ([110, 95, 95] ++ out)) = true
  rw [isLegalIdentifier, Bool.and_eq_true, List.all_eq_true]
  refine ⟨IsStart_header, ?_⟩
  intro v hv
  rcases List.mem_cons.mp hv with rfl | hv'
  · exact IsContinue_of_ascii hA (by rfl)
  · rcases List.mem_append.mp hv' with hh | ho
    · have hv : v = 110 ∨ v = 95 := by simpa using hh
      have : IsASCIIContinue v = true := by rcases hv with rfl | rfl <;> rfl
      exact IsContinue_of_ascii hA this
    · exact hmem v ho

/-!
### Claim theorems
-/

/-- C9 (confirmed): a string that is already a legal identifier under the
chosen profile is returned unchanged by `encodeIdentifier`.  For UTF8_XID this
uses the fact, true of the real Unicode tables, that U+FFFD is not
XID-continue. -/
theorem C9_legal_identifier_unchanged :
    ∀ (U : UnicodeData) (format : TranscodingFormat) (cs : List Nat),
      U.xidContinue INVALID_CODE_POINT = false →
      isLegalIdentifier U format cs = true →
      encodeIdentifier U cs format = cs := by
  intro U format cs hX hlegal
  cases cs with
  | nil => exact absurd hlegal (by simp [isLegalIdentifier])
  | cons c rest =>
    unfold isLegalIdentifier at hlegal
    rw [Bool.and_eq_true] at hlegal
    obtain ⟨hstart, hall⟩ := hlegal
    rw [List.all_eq_true] at hall
    unfold encodeIdentifier
    rw [encodeBootstring_all_continue hX hall]
    simp [hstart]

/-- C9 witness: `"hello"` (a legal ASCII identifier) is returned unchanged. -/
theorem C9_witness :
    encodeIdentifier emptyUnicodeData [104, 101, 108, 108, 111] TranscodingFormat.ASCII =
      [104, 101, 108, 108, 111] :=
  C9_legal_identifier_unchanged emptyUnicodeData TranscodingFormat.ASCII
    [104, 101, 108, 108, 111] rfl (by decide)

/-- C1 (code bug): the round-trip fails on the valid all-ASCII input
`"tn__5"` (code points 116 110 95 95 53).  It is already a legal ASCII
identifier, so `encodeIdentifier` returns it unchanged, but it begins with the
reserved header, so `decodeIdentifier` strips the header and bootstring-decodes
the remainder `"5"`, producing the control character U+0005 instead of the
original string — contradicting the spec and the repository documentation that
encoded names "can be losslessly decoded". -/
theorem C1_roundtrip_bug :
    decodeIdentifier
        (encodeIdentifier emptyUnicodeData [116, 110, 95, 95, 53] TranscodingFormat.ASCII) = [5] ∧
      ([5] : List Nat) ≠ [116, 110, 95, 95, 53] := by
  decide

/-- C2 (counterexample): on the valid UTF-8 input U+FFFD (bytes EF BF BD,
which the UTF-8 iterator reports as the invalid marker), Bootstring encoding
fails and `encodeIdentifier` returns the empty string, not the
character-substitution transform of the input (which is `"___"`). -/
theorem C2_counterexample :
    encodeIdentifier emptyUnicodeData [65533] TranscodingFormat.ASCII = [] ∧
      makeValidIdentifierExtended [239, 191, 189] = [95, 95, 95] ∧
      ([] : List Nat) ≠ [95, 95, 95] := by
  decide

/-- C2 (amended): whenever Bootstring encoding fails, `encodeIdentifier`
returns the empty string; the character-substitution fallback is applied by
its caller `makeValidIdentifier` (TfUtils.cpp), which calls
`makeValidIdentifierExtended` upon seeing the empty result. -/
theorem C2_amended :
    ∀ (U : UnicodeData) (cs : List Nat) (format : TranscodingFormat),
      encodeBootstring U cs format = none → encodeIdentifier U cs format = [] := by
  intro U cs format h
  unfold encodeIdentifier
  rw [h]

/-- C2 witness: the amended claim applied to the concrete failing input. -/
theorem C2_witness : encodeIdentifier emptyUnicodeData [65533] TranscodingFormat.ASCII = [] :=
  C2_amended emptyUnicodeData [65533] TranscodingFormat.ASCII (by decide)

/-- C3 (confirmed): `decodeIdentifier` returns its input unchanged whenever
the input does not begin with the fixed header `"tn__"`, and also whenever it
does begin with the header but Bootstring decoding of the remainder fails. -/
theorem C3_decode_safety :
    ∀ t : List Nat,
      (t.take 4 ≠ BOOTSTRING_HEADER → decodeIdentifier t = t) ∧
        (t.take 4 = BOOTSTRING_HEADER → decodeBootstring (t.drop 4) = none →
          decodeIdentifier t = t) := by
  intro t
  constructor
  · intro h
    unfold decodeIdentifier
    rw [if_neg h]
  · intro h1 h2
    unfold decodeIdentifier
    rw [if_pos h1, h2]

/-- C3 witness: a string without the header, and a string with the header
whose remainder is a truncated delta stream, both decode to themselves. -/
theorem C3_witness :
    decodeIdentifier [104, 105] = [104, 105] ∧
      decodeIdentifier [116, 110, 95, 95, 97] = [116, 110, 95, 95, 97] :=
  ⟨(C3_decode_safety [104, 105]).1 (by decide),
    (C3_decode_safety [116, 110, 95, 95, 97]).2 (by decide) (by decide)⟩

/-- C5 (counterexample): the delimiter `'_'` is itself continue-eligible
(in the ASCII profile shown here), and the basic skeleton can contain it:
the skeleton of `"a_"` is `"a_"`. -/
theorem C5_counterexample :
    IsContinue emptyUnicodeData BOOTSTRING_DELIMITER TranscodingFormat.ASCII = true ∧
      BOOTSTRING_DELIMITER ∈ skeletonOf emptyUnicodeData TranscodingFormat.ASCII [97, 95] := by
  decide

/-- C5 (amended): the delimiter is continue-eligible in both profiles (for
UTF8_XID under the true-of-Unicode assumption that ASCII identifier characters
are XID-continue), so the skeleton may contain it; what is guaranteed instead
is that the variable-length delta characters never equal the delimiter, which
is what makes the decoder's last-delimiter split sound. -/
theorem C5_amended :
    ∀ (U : UnicodeData) (format : TranscodingFormat),
      (∀ c, IsASCIIContinue c = true → U.xidContinue c = true) →
      IsContinue U BOOTSTRING_DELIMITER format = true ∧
        ∀ n c, c ∈ encodeVariableLength n → c ≠ BOOTSTRING_DELIMITER := by
  intro U format hA
  constructor
  · cases format with
    | ASCII => rfl
    | UTF8_XID => exact hA BOOTSTRING_DELIMITER (by decide)
  · intro n c h
    exact isBase62Char_ne_delimiter (encodeVariableLength_chars h)

/-- C5 witness: the amended claim at the ASCII-coinciding tables, the
UTF8_XID format, and the digit stream of 100. -/
theorem C5_witness :
    IsContinue asciiUnicodeData BOOTSTRING_DELIMITER TranscodingFormat.UTF8_XID = true ∧
      (99 : Nat) ≠ BOOTSTRING_DELIMITER :=
  ⟨(C5_amended asciiUnicodeData TranscodingFormat.UTF8_XID (fun _ h => h)).1,
    (C5_amended asciiUnicodeData TranscodingFormat.UTF8_XID (fun _ h => h)).2 100 99 (by decide)⟩

/-- C4 (counterexample): on the input consisting of the single code point
U+FFFD (valid UTF-8 bytes EF BF BD, reported by the iterator as the invalid
marker), `encodeIdentifier` returns the empty string, which is not a legal
identifier under any profile — and no substitution fallback runs inside
`encodeIdentifier`. -/
theorem C4_counterexample :
    encodeIdentifier emptyUnicodeData [65533] TranscodingFormat.ASCII = [] ∧
      isLegalIdentifier emptyUnicodeData TranscodingFormat.ASCII
        (encodeIdentifier emptyUnicodeData [65533] TranscodingFormat.ASCII) = false := by
  decide

/-- C4 (amended): whenever Bootstring encoding succeeds, `encodeIdentifier`
returns a legal identifier under the chosen profile (for UTF8_XID under the
true-of-Unicode assumption that ASCII identifier characters are XID-continue);
when it fails the result is the empty string, handled by the caller. -/
theorem C4_encode_validity :
    ∀ (U : UnicodeData) (format : TranscodingFormat) (cs : List Nat),
      (∀ x, IsASCIIContinue x = true → U.xidContinue x = true) →
      encodeBootstring U cs format ≠ none →
      isLegalIdentifier U format (encodeIdentifier U cs format) = true := by
  intro U format cs hA hne
  obtain ⟨out, hout⟩ : ∃ out, encodeBootstring U cs format = some out := by
    cases h : encodeBootstring U cs format with
    | none => exact absurd h hne
    | some out => exact ⟨out, rfl⟩
  obtain ⟨hinv, ds, hds, hstruct⟩ := encodeBootstring_structure hout
  rw [encodeIdentifier, hout]
  dsimp only
  by_cases hunch : out = cs ++ [BOOTSTRING_DELIMITER]
  · rw [if_pos hunch]
    have hds_nil : ds = [] := by
      by_contra hne2
      obtain ⟨hflat_ne, c, hcl, hc62⟩ := flatten_getLast_base62 hne2
      have h1 : out.getLast? = some c := by
        rw [hstruct, List.getLast?_append_of_ne_nil _ hflat_ne]
        exact hcl
      have h2 : out.getLast? = some BOOTSTRING_DELIMITER := by
        rw [hunch, List.getLast?_append_of_ne_nil _ (by simp)]
        rfl
      rw [h1] at h2
      exact isBase62Char_ne_delimiter hc62 (Option.some_injective _ h2)
    subst hds_nil
    have hext : extendedOf U format cs = [] :=
      extendedOf_nil_of_sorted_nil (deltaLoop_eq_some_nil hds)
    have hall : ∀ v ∈ cs, IsContinue U v format = true :=
      all_continue_of_extendedFrom_nil cs 0 hext
    cases cs with
    | nil =>
      exfalso
      have hskel : skeletonOf U format ([] : List Nat) = [] := rfl
      rw [hstruct, hskel] at hunch
      simp at hunch
    | cons c rest =>
      simp only [List.headD_cons]
      by_cases hstart : IsStart U c format = true
      · rw [if_pos hstart, isLegalIdentifier, Bool.and_eq_true, List.all_eq_true]
        exact ⟨hstart, hall⟩
      · rw [if_neg hstart]
        exact prefixed_legal hout hA
  · rw [if_neg hunch]
    exact prefixed_legal hout hA

/-- C4 witness: the amended claim at the input `"a\u00E9"` (an accented letter
forces transcoding) under the ASCII profile. -/
theorem C4_witness :
    isLegalIdentifier asciiUnicodeData TranscodingFormat.ASCII
      (encodeIdentifier asciiUnicodeData [97, 233] TranscodingFormat.ASCII) = true :=
  C4_encode_validity asciiUnicodeData TranscodingFormat.ASCII [97, 233]
    (fun _ h => h) (by decide)

/-- `delimiterPositionLoop` is the running accumulator when no delimiter
occurs. -/
theorem delimiterPositionLoop_no_delim :
    ∀ (l : List Nat), BOOTSTRING_DELIMITER ∉ l →
      ∀ p acc, delimiterPositionLoop l p acc = acc := by
  intro l
  induction l with
  | nil => intro _ _ _; rfl
  | cons v rest ih =>
    intro hnot p acc
    have hv : v ≠ BOOTSTRING_DELIMITER := fun hv => hnot (hv ▸ List.mem_cons_self v rest)
    rw [delimiterPositionLoop, if_neg hv]
    exact ih (fun hm => hnot (List.mem_cons_of_mem v hm)) (p + 1) acc

/-- `delimiterPositionLoop` over an append splits into two passes. -/
theorem delimiterPositionLoop_append :
    ∀ (l1 l2 : List Nat) (p acc : Nat),
      delimiterPositionLoop (l1 ++ l2) p acc =
        delimiterPositionLoop l2 (p + l1.length) (delimiterPositionLoop l1 p acc) := by
  intro l1
  induction l1 with
  | nil => intro l2 p acc; simp [delimiterPositionLoop]
  | cons v rest ih =>
    intro l2 p acc
    rw [List.cons_append, delimiterPositionLoop, delimiterPositionLoop, ih]
    have : p + 1 + rest.length = p + (rest.length + 1) := by omega
    rw [this]
    rfl

/-- The delimiter position of `skeleton ++ '_' :: tail` with a
delimiter-free tail is the skeleton length: the split point the decoder uses. -/
theorem delimiterPositionOf_boundary {skel tail : List Nat}
    (htail : BOOTSTRING_DELIMITER ∉ tail) :
    delimiterPositionOf (skel ++ BOOTSTRING_DELIMITER :: tail) = skel.length := by
  rw [delimiterPositionOf, delimiterPositionLoop_append, delimiterPositionLoop,
    if_pos rfl, delimiterPositionLoop_no_delim tail htail]
  omega

/-- C10 (confirmed): every delta character is base62 (digit or letter), never
the delimiter, so in a successfully encoded string with a non-empty skeleton
the last occurrence of the delimiter is exactly the one appended after the
skeleton: the decoder's last-occurrence split recovers the boundary. -/
theorem C10_delimiter_boundary :
    ∀ (U : UnicodeData) (format : TranscodingFormat) (cs out : List Nat),
      encodeBootstring U cs format = some out →
      skeletonOf U format cs ≠ [] →
      (∀ n c, c ∈ encodeVariableLength n →
        isBase62Char c = true ∧ c ≠ BOOTSTRING_DELIMITER) ∧
        ∃ ds, deltaLoop (seededTreeOf U format cs) 0 (skeletonOf U format cs).length
            (sortedExtendedOf U format cs) = some ds ∧
          out = skeletonOf U format cs ++
            BOOTSTRING_DELIMITER :: (ds.map encodeVariableLength).flatten ∧
          BOOTSTRING_DELIMITER ∉ (ds.map encodeVariableLength).flatten ∧
          delimiterPositionOf out = (skeletonOf U format cs).length := by
  intro U format cs out hout hskel
  obtain ⟨hinv, ds, hds, hstruct⟩ := encodeBootstring_structure hout
  rw [if_neg hskel] at hstruct
  have hnotin : BOOTSTRING_DELIMITER ∉ (ds.map encodeVariableLength).flatten := by
    intro hmem
    exact isBase62Char_ne_delimiter (mem_flatten_base62 hmem) rfl
  refine ⟨fun n c hc => ⟨encodeVariableLength_chars hc,
    isBase62Char_ne_delimiter (encodeVariableLength_chars hc)⟩, ds, hds, ?_, hnotin, ?_⟩
  · rw [hstruct]
    simp
  · rw [hstruct, List.append_assoc, List.singleton_append]
    exact delimiterPositionOf_boundary hnotin

/-- C10 witness: the encoding of `"a\u00E9"`, whose skeleton is `"a"` and whose
delta stream is `"XE"`; the decoder's split point is 1. -/
theorem C10_witness :
    delimiterPositionOf [97, 95, 88, 69] = 1 := by
  have h := C10_delimiter_boundary emptyUnicodeData TranscodingFormat.ASCII
    [97, 233] [97, 95, 88, 69] (by decide) (by decide)
  obtain ⟨-, ds, -, -, -, hpos⟩ := h
  simpa using hpos

/-- Elements of `skelPositionsFrom` lie in the processed window. -/
theorem skelPositionsFrom_mem {U : UnicodeData} {format : TranscodingFormat} :
    ∀ (rest : List Nat) (pos q : Nat), q ∈ skelPositionsFrom U format rest pos →
      pos ≤ q ∧ q < pos + rest.length := by
  intro rest
  induction rest with
  | nil =>
    intro pos q h
    simp [skelPositionsFrom] at h
  | cons v rest ih =>
    intro pos q h
    rw [skelPositionsFrom] at h
    by_cases hc : IsContinue U v format = true
    · rw [if_pos hc] at h
      rcases List.mem_cons.mp h with h1 | h2
      · subst h1
        simp only [List.length_cons]
        omega
      · have := ih (pos + 1) q h2
        simp only [List.length_cons]
        omega
    · rw [if_neg hc] at h
      have := ih (pos + 1) q h
      simp only [List.length_cons]
      omega

/-- The skeleton positions are pairwise distinct. -/
theorem skelPositionsFrom_nodup {U : UnicodeData} {format : TranscodingFormat} :
    ∀ (rest : List Nat) (pos : Nat), (skelPositionsFrom U format rest pos).Nodup := by
  intro rest
  induction rest with
  | nil =>
    intro pos
    simp [skelPositionsFrom]
  | cons v rest ih =>
    intro pos
    rw [skelPositionsFrom]
    by_cases hc : IsContinue U v format = true
    · rw [if_pos hc]
      refine List.nodup_cons.mpr ⟨?_, ih (pos + 1)⟩
      intro hmem
      have := skelPositionsFrom_mem rest (pos + 1) pos hmem
      omega
    · rw [if_neg hc]
      exact ih (pos + 1)

/-- There are as many skeleton positions as skeleton code points. -/
theorem skelPositionsFrom_length {U : UnicodeData} {format : TranscodingFormat} :
    ∀ (rest : List Nat) (pos : Nat),
      (skelPositionsFrom U format rest pos).length
        = (rest.filter fun v => IsContinue U v format).length := by
  intro rest
  induction rest with
  | nil => intro pos; rfl
  | cons v rest ih =>
    intro pos
    rw [skelPositionsFrom, List.filter_cons]
    by_cases hc : IsContinue U v format = true
    · rw [if_pos hc, if_pos hc, List.length_cons, List.length_cons, ih]
    · rw [if_neg hc, if_neg hc, ih]

/-- Positions of the extended code points lie in the processed window. -/
theorem extendedFrom_mem {U : UnicodeData} {format : TranscodingFormat} :
    ∀ (rest : List Nat) (pos : Nat) (cp : Nat × Nat), cp ∈ extendedFrom U format rest pos →
      pos ≤ cp.2 ∧ cp.2 < pos + rest.length := by
  intro rest
  induction rest with
  | nil =>
    intro pos cp h
    simp [extendedFrom] at h
  | cons v rest ih =>
    intro pos cp h
    rw [extendedFrom] at h
    by_cases hc : IsContinue U v format = true
    · rw [if_pos hc] at h
      have := ih (pos + 1) cp h
      simp only [List.length_cons]
      omega
    · rw [if_neg hc] at h
      rcases List.mem_cons.mp h with h1 | h2
      · have h3 : cp.2 = pos := by rw [h1]
        simp only [List.length_cons]
        omega
      · have := ih (pos + 1) cp h2
        simp only [List.length_cons]
        omega

/-- An extended code point's position is never a skeleton position. -/
theorem extendedFrom_not_skel {U : UnicodeData} {format : TranscodingFormat} :
    ∀ (rest : List Nat) (pos : Nat) (cp : Nat × Nat), cp ∈ extendedFrom U format rest pos →
      cp.2 ∉ skelPositionsFrom U format rest pos := by
  intro rest
  induction rest with
  | nil =>
    intro pos cp h
    simp [extendedFrom] at h
  | cons v rest ih =>
    intro pos cp h
    rw [extendedFrom] at h
    rw [skelPositionsFrom]
    by_cases hc : IsContinue U v format = true
    · rw [if_pos hc] at h
      rw [if_pos hc]
      intro hmem
      rcases List.mem_cons.mp hmem with h1 | h2
      · have := extendedFrom_mem rest (pos + 1) cp h
        omega
      · exact ih (pos + 1) cp h h2
    · rw [if_neg hc] at h
      rw [if_neg hc]
      rcases List.mem_cons.mp h with h1 | h2
      · intro hmem
        have h3 := skelPositionsFrom_mem rest (pos + 1) cp.2 hmem
        have h4 : cp.2 = pos := by rw [h1]
        omega
      · exact ih (pos + 1) cp h2

/-- The positions of the extended code points are pairwise distinct. -/
theorem extendedFrom_snd_nodup {U : UnicodeData} {format : TranscodingFormat} :
    ∀ (rest : List Nat) (pos : Nat), ((extendedFrom U format rest pos).map Prod.snd).Nodup := by
  intro rest
  induction rest with
  | nil =>
    intro pos
    simp [extendedFrom]
  | cons v rest ih =>
    intro pos
    rw [extendedFrom]
    by_cases hc : IsContinue U v format = true
    · rw [if_pos hc]
      exact ih (pos + 1)
    · rw [if_neg hc]
      refine List.nodup_cons.mpr ⟨?_, ih (pos + 1)⟩
      intro hmem
      obtain ⟨cp, hcp, hsnd⟩ := List.mem_map.mp hmem
      have hb := extendedFrom_mem rest (pos + 1) cp hcp
      rw [hsnd] at hb
      omega

/-- For a duplicate-free position list, the indicator prefix sum counts the
positions below the bound. -/
theorem indicator_sum_countBefore :
    ∀ (placed : List Nat), placed.Nodup → ∀ j : Nat,
      (∑ k in Finset.range j, if k ∈ placed then 1 else 0) = countBefore placed j := by
  intro placed
  induction placed with
  | nil =>
    intro _ j
    simp [countBefore]
  | cons p rest ih =>
    intro hnd j
    obtain ⟨hp, hrest⟩ := List.nodup_cons.mp hnd
    have hsplit : ∀ k : Nat, (if k ∈ p :: rest then (1 : Nat) else 0)
        = (if k = p then 1 else 0) + (if k ∈ rest then 1 else 0) := by
      intro k
      by_cases hk : k = p
      · subst hk
        simp [hp]
      · simp [hk, List.mem_cons]
    rw [Finset.sum_congr rfl (fun k _ => hsplit k), Finset.sum_add_distrib, ih hrest j,
      Finset.sum_ite_eq' (Finset.range j) p (fun _ => 1)]
    simp only [countBefore, List.filter_cons, Finset.mem_range]
    by_cases hpj : p < j
    · rw [if_pos hpj, if_pos (by simpa using hpj), List.length_cons]
      omega
    · rw [if_neg hpj, if_neg (by simpa using hpj), Nat.zero_add]

/-- `countBefore` ignores a bound that is itself not placed. -/
theorem countBefore_succ_notin {placed : List Nat} {p : Nat} (h : p ∉ placed) :
    countBefore placed (p + 1) = countBefore placed p := by
  simp only [countBefore]
  apply congrArg List.length
  apply List.filter_congr
  intro q hq
  have hqp : q ≠ p := fun hc => h (hc ▸ hq)
  exact decide_eq_decide.mpr (by omega)

/-- The source's division-based overflow guard fires exactly when the delta
value would exceed the 64-bit maximum. -/
theorem overflow_iff {d m c : Nat} (hc : c ≤ U64_MAX) :
    ((U64_MAX - c) / (m + 1) < d) ↔ (U64_MAX < d * (m + 1) + c) := by
  rw [Nat.div_lt_iff_lt_mul (Nat.succ_pos m)]
  generalize d * (m + 1) = X
  omega

/-- A duplicate-free list of naturals below `N` has at most `N` elements. -/
theorem nodup_length_le {l : List Nat} {N : Nat} (hnd : l.Nodup) (hb : ∀ x ∈ l, x < N) :
    l.length ≤ N := by
  have h1 : l.toFinset.card = l.length := List.toFinset_card_of_nodup hnd
  have h2 : l.toFinset ⊆ Finset.range N := by
    intro x hx
    rw [Finset.mem_range]
    exact hb x (List.mem_toFinset.mp hx)
  have h3 := Finset.card_le_card h2
  rw [h1, Finset.card_range] at h3
  exact h3

/-- The seeding loop of `encodeBootstring` adds one count at every skeleton
position, staying coherent and preserving the vector length. -/
theorem Coherent_seedTreeFrom (U : UnicodeData) (format : TranscodingFormat) :
    ∀ (rest : List Nat) (pos : Nat) (t : BinaryIndexedTree) (counts : Nat → Nat),
      Coherent t counts → pos + rest.length < t.tree.length →
      Coherent (seedTreeFrom U format rest pos t)
          (fun k => counts k + if k ∈ skelPositionsFrom U format rest pos then 1 else 0) ∧
        (seedTreeFrom U format rest pos t).tree.length = t.tree.length := by
  intro rest
  induction rest with
  | nil =>
    intro pos t counts hco _
    refine ⟨?_, rfl⟩
    have he : (fun k => counts k + if k ∈ skelPositionsFrom U format [] pos then 1 else 0)
        = counts := by
      funext k
      simp [skelPositionsFrom]
    rw [he]
    exact hco
  | cons v rest ih =>
    intro pos t counts hco hlen
    rw [seedTreeFrom, skelPositionsFrom]
    by_cases hc : IsContinue U v format = true
    · rw [if_pos hc, if_pos hc]
      have hco2 := Coherent_increase hco (show pos + 1 < t.tree.length by
        simp only [List.length_cons] at hlen
        omega)
      obtain ⟨hco3, hlen3⟩ := ih (pos + 1) (t.increase pos)
        (fun k => counts k + if k = pos then 1 else 0) hco2
        (by rw [length_increase]; simp only [List.length_cons] at hlen; omega)
      refine ⟨?_, by rw [hlen3, length_increase]⟩
      have he : (fun k => (counts k + if k = pos then 1 else 0)
            + if k ∈ skelPositionsFrom U format rest (pos + 1) then 1 else 0)
          = (fun k => counts k
            + if k ∈ pos :: skelPositionsFrom U format rest (pos + 1) then 1 else 0) := by
        funext k
        by_cases hk : k = pos
        · subst hk
          have hnot : k ∉ skelPositionsFrom U format rest (k + 1) := by
            intro hmem
            have := skelPositionsFrom_mem rest (k + 1) k hmem
            omega
          simp [hnot]
        · simp [hk, List.mem_cons]
      rw [← he]
      exact hco3
    · rw [if_neg hc, if_neg hc]
      exact ih (pos + 1) t counts hco (by simp only [List.length_cons] at hlen; omega) |>.1
        |> fun h => ⟨h, (ih (pos + 1) t counts hco
          (by simp only [List.length_cons] at hlen; omega)).2⟩

/-- The seeded tree of `encodeBootstring` is coherent over the indicator of
the skeleton positions. -/
theorem Coherent_seededTreeOf (U : UnicodeData) (format : TranscodingFormat) (cs : List Nat)
    (h : cs.length + 1 ≤ 2 ^ 64) :
    Coherent (seededTreeOf U format cs)
        (fun k => if k ∈ skelPositionsOf U format cs then 1 else 0) ∧
      (seededTreeOf U format cs).tree.length = cs.length + 1 := by
  have hmklen : (BinaryIndexedTree.make cs.length).tree.length = cs.length + 1 := by
    simp [BinaryIndexedTree.make]
  obtain ⟨hco, hlen⟩ := Coherent_seedTreeFrom U format cs 0 (BinaryIndexedTree.make cs.length)
    (fun _ => 0) (Coherent_make h) (by omega)
  have he : (fun k => (0 : Nat) + if k ∈ skelPositionsFrom U format cs 0 then 1 else 0)
      = (fun k => if k ∈ skelPositionsOf U format cs then 1 else 0) := by
    funext k
    rw [Nat.zero_add]
    rfl
  refine ⟨?_, by rw [seededTreeOf, hlen, hmklen]⟩
  rw [← he]
  exact hco

/-- The delta loop of the source computes exactly the spec's delta formula:
with a coherent tree over the already-placed positions, each value handed to
the variable-length encoder is `(codePoint - prev) * (alreadyPlaced + 1) +
positionsPreceding`, and the source's division-based overflow guard fires
exactly when that value exceeds the 64-bit maximum. -/
theorem deltaLoop_eq_specDeltas {N : Nat} (hN : N + 1 ≤ 2 ^ 64) :
    ∀ (l : List (Nat × Nat)) (placed : List Nat) (tree : BinaryIndexedTree) (prev : Nat),
      Coherent tree (fun k => if k ∈ placed then 1 else 0) →
      tree.tree.length = N + 1 →
      placed.Nodup →
      (∀ p ∈ placed, p < N) →
      (∀ cp ∈ l, cp.2 < N ∧ cp.2 ∉ placed) →
      (l.map Prod.snd).Nodup →
      deltaLoop tree prev placed.length l = specDeltas placed prev placed.length l := by
  intro l
  induction l with
  | nil =>
    intro placed tree prev _ _ _ _ _ _
    rfl
  | cons hd rest ih =>
    obtain ⟨c, p⟩ := hd
    intro placed tree prev hco htlen hnd hbound hl hndl
    have hpN : p < N := (hl (c, p) (List.mem_cons_self _ _)).1
    have hpnotin : p ∉ placed := (hl (c, p) (List.mem_cons_self _ _)).2
    have hplen : placed.length ≤ N := nodup_length_le hnd hbound
    have hsum : tree.sum p = countBefore placed p := by
      rw [sum_spec hco (by omega), indicator_sum_countBefore placed hnd (p + 1),
        countBefore_succ_notin hpnotin]
    have hcble : countBefore placed p ≤ placed.length := List.length_filter_le _ _
    have hcU : countBefore placed p ≤ U64_MAX := by
      have : N ≤ U64_MAX := by
        rw [U64_MAX]
        omega
      omega
    rw [deltaLoop, specDeltas]
    dsimp only
    rw [hsum]
    have hguard : ((U64_MAX - countBefore placed p) / (placed.length + 1) < c - prev)
        ↔ (U64_MAX < (c - prev) * (placed.length + 1) + countBefore placed p) :=
      overflow_iff hcU
    have hndl2 : p ∉ rest.map Prod.snd ∧ (rest.map Prod.snd).Nodup :=
      List.nodup_cons.mp (by simpa using hndl)
    by_cases hover : U64_MAX < (c - prev) * (placed.length + 1) + countBefore placed p
    · rw [if_pos (hguard.mpr hover), if_pos hover]
    · rw [if_neg (fun hc2 => hover (hguard.mp hc2)), if_neg hover]
      have hco2 := Coherent_increase hco (show p + 1 < tree.tree.length by omega)
      have he : (fun k => (if k ∈ placed then (1 : Nat) else 0) + if k = p then 1 else 0)
          = (fun k => if k ∈ p :: placed then 1 else 0) := by
        funext k
        by_cases hk : k = p
        · subst hk
          simp [hpnotin]
        · simp [hk, List.mem_cons]
      rw [he] at hco2
      have hrec : deltaLoop (tree.increase p) c (placed.length + 1) rest
          = specDeltas (p :: placed) c (placed.length + 1) rest := by
        have hmain := ih (p :: placed) (tree.increase p) c hco2
          (by rw [length_increase]; exact htlen)
          (List.nodup_cons.mpr ⟨hpnotin, hnd⟩)
          (by
            intro q hq
            rcases List.mem_cons.mp hq with h | h
            · exact h.symm ▸ hpN
            · exact hbound q h)
          (by
            intro cp hcp
            have h1 := hl cp (List.mem_cons_of_mem _ hcp)
            refine ⟨h1.1, fun hc2 => ?_⟩
            rcases List.mem_cons.mp hc2 with h | h
            · exact hndl2.1 (h ▸ List.mem_map_of_mem Prod.snd hcp)
            · exact h1.2 h)
          hndl2.2
        rw [List.length_cons] at hmain
        exact hmain
      rw [hrec]
      cases specDeltas (p :: placed) c (placed.length + 1) rest with
      | none => rfl
      | some ds =>
        rw [Nat.add_comm (countBefore placed p) ((c - prev) * (placed.length + 1))]

/-- C8: during Bootstring encoding, the value handed to the variable-length
encoder for each extended code point (taken in sorted order) equals
`(codePoint - previousCodePoint) * (alreadyPlaced + 1) + positionsPreceding`,
where `positionsPreceding` counts the skeleton or already-emitted original
positions strictly before the entry's position, `previousCodePoint` starts at
0 and `alreadyPlaced` starts at the skeleton size — the source's delta loop
coincides with the spec-modelled `specDeltas`, including the point of failure:
the division-based overflow guard fires exactly when the spec's delta exceeds
the 64-bit maximum, and any such failure makes the whole encode return
failure. -/
theorem C8_delta_formula (U : UnicodeData) (format : TranscodingFormat) (cs : List Nat)
    (h : cs.length < 2 ^ 64) :
    deltaLoop (seededTreeOf U format cs) 0 (skeletonOf U format cs).length
        (sortedExtendedOf U format cs)
      = specDeltas (skelPositionsOf U format cs) 0 (skeletonOf U format cs).length
        (sortedExtendedOf U format cs) ∧
      (specDeltas (skelPositionsOf U format cs) 0 (skeletonOf U format cs).length
          (sortedExtendedOf U format cs) = none →
        encodeBootstring U cs format = none) := by
  have hN : cs.length + 1 ≤ 2 ^ 64 := by omega
  obtain ⟨hco, htlen⟩ := Coherent_seededTreeOf U format cs hN
  have hperm := List.perm_insertionSort pairLE (extendedOf U format cs)
  have hlenEq : (skelPositionsOf U format cs).length = (skeletonOf U format cs).length :=
    skelPositionsFrom_length cs 0
  have hmain : deltaLoop (seededTreeOf U format cs) 0 (skelPositionsOf U format cs).length
      (sortedExtendedOf U format cs)
      = specDeltas (skelPositionsOf U format cs) 0 (skelPositionsOf U format cs).length
        (sortedExtendedOf U format cs) := by
    refine deltaLoop_eq_specDeltas hN (sortedExtendedOf U format cs)
      (skelPositionsOf U format cs) (seededTreeOf U format cs) 0 hco htlen
      (skelPositionsFrom_nodup cs 0) ?_ ?_ ?_
    · intro q hq
      have := skelPositionsFrom_mem cs 0 q hq
      omega
    · intro cp hcp
      have hcpE : cp ∈ extendedOf U format cs := hperm.mem_iff.mp hcp
      have h1 := extendedFrom_mem cs 0 cp hcpE
      have h2 := extendedFrom_not_skel cs 0 cp hcpE
      exact ⟨by omega, h2⟩
    · exact ((hperm.map Prod.snd).nodup_iff).mpr (extendedFrom_snd_nodup cs 0)
  rw [hlenEq] at hmain
  refine ⟨hmain, fun hnone => ?_⟩
  unfold encodeBootstring
  by_cases hinv : INVALID_CODE_POINT ∈ cs
  · rw [if_pos hinv]
  · rw [if_neg hinv]
    dsimp only
    rw [hmain, hnone]

/-- C8 witness: the input `"aéǴ"` (skeleton `"a"`, two extended code
points), whose delta values are `1 + 233 * 2 = 467` and `2 + 267 * 3 = 803` on
both sides. -/
theorem C8_witness :
    deltaLoop (seededTreeOf emptyUnicodeData TranscodingFormat.ASCII [97, 233, 500]) 0
        (skeletonOf emptyUnicodeData TranscodingFormat.ASCII [97, 233, 500]).length
        (sortedExtendedOf emptyUnicodeData TranscodingFormat.ASCII [97, 233, 500])
      = specDeltas (skelPositionsOf emptyUnicodeData TranscodingFormat.ASCII [97, 233, 500]) 0
        (skeletonOf emptyUnicodeData TranscodingFormat.ASCII [97, 233, 500]).length
        (sortedExtendedOf emptyUnicodeData TranscodingFormat.ASCII [97, 233, 500]) ∧
      specDeltas (skelPositionsOf emptyUnicodeData TranscodingFormat.ASCII [97, 233, 500]) 0
        (skeletonOf emptyUnicodeData TranscodingFormat.ASCII [97, 233, 500]).length
        (sortedExtendedOf emptyUnicodeData TranscodingFormat.ASCII [97, 233, 500])
        = some [467, 803] :=
  ⟨(C8_delta_formula emptyUnicodeData TranscodingFormat.ASCII [97, 233, 500] (by norm_num)).1,
    by decide⟩

/-- C6 (counterexample): on a capacity-1 tree holding one count at slot 0
(total count 1), `lower 2` — a target sum exceeding the total stored count —
returns `some 1` (the capacity itself, an out-of-range index) instead of
"not found"; and on the tree holding two counts at slot 0 (reachable by two
`increase` calls), `lower 2` returns `none` even though slot 0's prefix
sum is exactly 2. Both refute the claimed `findByRank` contract. -/
theorem C6_counterexample :
    ((BinaryIndexedTree.make 1).increase 0).sum 0 = 1 ∧
      ((BinaryIndexedTree.make 1).increase 0).lower 2 = some 1 ∧
      (((BinaryIndexedTree.make 1).increase 0).increase 0).sum 0 = 2 ∧
      (((BinaryIndexedTree.make 1).increase 0).increase 0).lower 2 = none := by
  decide

/-- C6 (amended): for a coherent capacity-`n` tree over an occupancy vector
(every per-slot count is 0 or 1), `lower` behaves as follows. `lower 0`
returns `some 0`; when some `i ≤ n` is the smallest index whose inclusive
prefix sum equals `s` (its exclusive prefix sum is below `s` and its inclusive
one equals `s`), `lower s` returns exactly that `some i` — this is the part of
the claimed contract that does hold; when `s` is exactly the total count plus
one, `lower s` returns `some n` (the capacity, an out-of-range slot) rather
than the claimed "not found"; only when `s` exceeds the total count by two or
more does it return `none`. -/
theorem C6_amended {t : BinaryIndexedTree} {counts : Nat → Nat} {n : Nat}
    (hco : Coherent t counts) (hlen : t.tree.length = n + 1)
    (hocc : ∀ k, counts k ≤ 1) (s : Nat) :
    (s = 0 → t.lower s = some 0) ∧
      (∀ i, i ≤ n → prefixCount counts i < s → prefixCount counts (i + 1) = s →
        t.lower s = some i) ∧
      (s = prefixCount counts n + 1 → t.lower s = some n) ∧
      (prefixCount counts n + 2 ≤ s → t.lower s = none) := by
  refine ⟨fun hs0 => hs0 ▸ lower_zero t, ?_, ?_, ?_⟩
  · intro i hin hlt heq
    have hs : 1 ≤ s := by omega
    have hstep : prefixCount counts (i + 1) = prefixCount counts i + counts i := by
      simp [prefixCount, Finset.sum_range_succ]
    have hocci := hocc i
    have hmax : ∀ j, j < t.tree.length → prefixCount counts j < s → j ≤ i := by
      intro j hj hpj
      by_contra hji
      push_neg at hji
      have := @prefixCount_mono counts _ _ (show i + 1 ≤ j by omega)
      omega
    rw [lower_spec hco hs (by omega) hlt hmax, if_neg (by omega)]
  · intro hseq
    have hs : 1 ≤ s := by omega
    have hPA : prefixCount counts n < s := by omega
    have hmax : ∀ j, j < t.tree.length → prefixCount counts j < s → j ≤ n := by
      intro j hj _
      omega
    rw [lower_spec hco hs (by omega) hPA hmax, if_neg (by omega)]
  · intro hsge
    have hs : 1 ≤ s := by omega
    have hPA : prefixCount counts n < s := by omega
    have hmax : ∀ j, j < t.tree.length → prefixCount counts j < s → j ≤ n := by
      intro j hj _
      omega
    rw [lower_spec hco hs (by omega) hPA hmax, if_pos (by omega)]

/-- C6 witness: the capacity-2 tree with slot 0 occupied. `lower 0 = some 0`,
`lower 1` finds slot 0 (the smallest index with prefix sum 1), `lower 2`
(total + 1) returns the out-of-range `some 2`, and `lower 3` returns `none`. -/
theorem C6_witness :
    ((BinaryIndexedTree.make 2).increase 0).lower 0 = some 0 ∧
      ((BinaryIndexedTree.make 2).increase 0).lower 1 = some 0 ∧
      ((BinaryIndexedTree.make 2).increase 0).lower 2 = some 2 ∧
      ((BinaryIndexedTree.make 2).increase 0).lower 3 = none := by
  have hco : Coherent ((BinaryIndexedTree.make 2).increase 0)
      (fun k => (fun _ => (0 : Nat)) k + if k = 0 then 1 else 0) :=
    Coherent_increase (Coherent_make (by norm_num)) (by decide)
  have hocc : ∀ k, ((fun k => (fun _ => (0 : Nat)) k + if k = 0 then 1 else 0)) k ≤ 1 := by
    intro k
    by_cases hk : k = 0 <;> simp [hk]
  refine ⟨(@C6_amended _ _ 2 hco (by decide) hocc 0).1 rfl,
    (@C6_amended _ _ 2 hco (by decide) hocc 1).2.1 0 (by decide) (by decide) (by decide),
    (@C6_amended _ _ 2 hco (by decide) hocc 2).2.2.1 (by decide),
    (@C6_amended _ _ 2 hco (by decide) hocc 3).2.2.2 (by decide)⟩

end Usdex
